import Mathlib

/-!
Verification of the FileLine pipeline core (src/core/pipeline.py,
src/core/processing.py, src/core/models.py, src/commands/data_commands/trace.py)
against its specification.

The Python code is shallowly embedded:
* the SQLAlchemy session and the sqlite tables become an explicit `DB` record
  of append-only row lists (rows carry `created_at` timestamps that strictly
  follow insertion order, so the source's `ORDER BY created_at DESC LIMIT 1`
  is modelled by taking the last matching row);
* `str(n)` for a Python int becomes `natStr` (decimal digits, `-` sign for
  negative ints in `intStr`);
* `sorted` on strings becomes insertion sort by the code-point lexicographic
  order `strle` (any stable sort agrees with Python's `sorted` up to the
  properties used here);
* `json.dumps(params, sort_keys=True)` becomes `dumpsL` over a canonical
  JSON value type `JVal` (objects nested inside parameter values are not
  needed by any claim and are omitted; string escaping covers the quote and
  backslash characters);
* `hashlib.sha256(x).hexdigest()` is idealised as injective, i.e. the cache
  key is modelled by the hash preimage string itself; likewise a processor
  implementation is identified with the registry's implementation-hash string
  (`ProcessorRegistry._calculate_hash`), which the source derives injectively
  (up to SHA-256) from the collected source text;
* the file system is a parameter: ingestion receives the sorted matched file
  list (the output of the glob/regex include–exclude evaluation, which lives
  in the external `glob`/`re` libraries), a per-file include-spec tag map and
  an mtime function; raw file copies and processor invocations are counted by
  instrumentation fields `rawStores` and `procCalls` of `DB`.
-/

/-! ## Decimal rendering of integers (Python `str`) -/

/-- List of the ten decimal digit characters. -/
def digitChars : List Char := ['0', '1', '2', '3', '4', '5', '6', '7', '8', '9']

/-- Fuel-driven digit expansion; with fuel above `n` it computes the decimal
digits of `n` most significant first, as Python's `str` does. -/
def natStrGo : Nat → Nat → List Char
  | 0, _ => []
  | fuel + 1, n =>
    if n < 10 then [Nat.digitChar n]
    else natStrGo fuel (n / 10) ++ [Nat.digitChar (n % 10)]

/-- Decimal digits of `n`, most significant first: the model of Python
`str(n)` for a nonnegative int. -/
def natStrL (n : Nat) : List Char := natStrGo (n + 1) n

/-- String form of `natStrL`. -/
def natStr (n : Nat) : String := String.mk (natStrL n)

/-- Model of Python `str(i)` for an arbitrary int (used for JSON numbers). -/
def intStrL (i : Int) : List Char :=
  if i < 0 then '-' :: natStrL i.natAbs else natStrL i.toNat

theorem natStrGo_congr : ∀ f g n, n < f → n < g → natStrGo f n = natStrGo g n := by
  intro f
  induction f with
  | zero => intro g n h; omega
  | succ f ih =>
    intro g n hf hg
    match g with
    | 0 => omega
    | g + 1 =>
      show (if n < 10 then _ else _) = (if n < 10 then _ else _)
      split
      · rfl
      · rw [ih g (n / 10) (by omega) (by omega)]

/-- Unfolding equation for `natStrL`, matching the usual recursive definition
of decimal printing. -/
theorem natStrL_eq (n : Nat) :
    natStrL n = if n < 10 then [Nat.digitChar n]
                else natStrL (n / 10) ++ [Nat.digitChar (n % 10)] := by
  show (if n < 10 then _ else _) = _
  split
  · rfl
  · rw [natStrL, natStrGo_congr n (n / 10 + 1) (n / 10) (by omega) (by omega)]

theorem natStrL_ne_nil (n : Nat) : natStrL n ≠ [] := by
  rw [natStrL_eq]
  split
  · simp
  · simp

theorem digitChar_mem_digitChars {d : Nat} (h : d < 10) :
    Nat.digitChar d ∈ digitChars := by
  interval_cases d <;> decide

theorem digitChar_inj {d e : Nat} (hd : d < 10) (he : e < 10)
    (h : Nat.digitChar d = Nat.digitChar e) : d = e := by
  interval_cases d <;> interval_cases e <;> first | rfl | exact absurd h (by decide)

theorem natStrL_digits (n : Nat) : ∀ c ∈ natStrL n, c ∈ digitChars := by
  induction n using Nat.strong_induction_on with
  | _ n ih =>
    rw [natStrL_eq]
    split
    · intro c hc
      rw [List.mem_singleton] at hc
      subst hc
      exact digitChar_mem_digitChars (by omega)
    · intro c hc
      rcases List.mem_append.mp hc with h | h
      · exact ih (n / 10) (Nat.div_lt_self (by omega) (by omega)) c h
      · rw [List.mem_singleton] at h
        subst h
        exact digitChar_mem_digitChars (Nat.mod_lt _ (by omega))

theorem natStrL_inj : ∀ m n, natStrL m = natStrL n → m = n := by
  intro m
  induction m using Nat.strong_induction_on with
  | _ m ih =>
    intro n h
    rw [natStrL_eq m, natStrL_eq n] at h
    by_cases hm : m < 10 <;> by_cases hn : n < 10
    · rw [if_pos hm, if_pos hn] at h
      exact digitChar_inj hm hn (List.singleton_injective h)
    · rw [if_pos hm, if_neg hn] at h
      have hl := congrArg List.length h
      simp only [List.length_append, List.length_singleton] at hl
      have hlen : 0 < (natStrL (n / 10)).length :=
        List.length_pos.mpr (natStrL_ne_nil _)
      omega
    · rw [if_neg hm, if_pos hn] at h
      have hl := congrArg List.length h
      simp only [List.length_append, List.length_singleton] at hl
      have hlen : 0 < (natStrL (m / 10)).length :=
        List.length_pos.mpr (natStrL_ne_nil _)
      omega
    · rw [if_neg hm, if_neg hn] at h
      have hp := List.append_inj' h (by rfl)
      have hdiv : m / 10 = n / 10 :=
        ih (m / 10) (Nat.div_lt_self (by omega) (by omega)) _ hp.1
      have hmod : m % 10 = n % 10 :=
        digitChar_inj (Nat.mod_lt _ (by omega)) (Nat.mod_lt _ (by omega))
          (List.singleton_injective hp.2)
      omega

theorem natStr_inj : Function.Injective natStr := by
  intro m n h
  exact natStrL_inj m n (by injection h)

/-- Digits are not the comma character. -/
theorem natStrL_no_comma (n : Nat) : ',' ∉ natStrL n := by
  intro hc
  have := natStrL_digits n ',' hc
  revert this
  decide

/-! ## Lexicographic order on char lists (Python string comparison) -/

/-- Code-point lexicographic comparison of char lists; Python's `sorted`
orders strings this way. -/
def lexLe : List Char → List Char → Bool
  | [], _ => true
  | _ :: _, [] => false
  | a :: as, b :: bs => if a < b then true else if b < a then false else lexLe as bs

/-- Order used to sort stringified ids and JSON keys. -/
def strle (a b : String) : Prop := lexLe a.data b.data = true

instance : DecidableRel strle := fun a b => by
  unfold strle
  infer_instance

theorem lexLe_total : ∀ a b, lexLe a b = true ∨ lexLe b a = true := by
  intro a
  induction a with
  | nil => intro b; left; rfl
  | cons x xs ih =>
    intro b
    match b with
    | [] => right; rfl
    | y :: ys =>
      show (if x < y then true else if y < x then false else lexLe xs ys) = true ∨
           (if y < x then true else if x < y then false else lexLe ys xs) = true
      rcases lt_trichotomy x y with h | h | h
      · left; rw [if_pos h]
      · subst h
        rw [if_neg (lt_irrefl x), if_neg (lt_irrefl x), if_neg (lt_irrefl x),
          if_neg (lt_irrefl x)]
        exact ih ys
      · right; rw [if_pos h]

theorem lexLe_antisymm : ∀ a b, lexLe a b = true → lexLe b a = true → a = b := by
  intro a
  induction a with
  | nil =>
    intro b _ hba
    match b with
    | [] => rfl
    | y :: ys => exact absurd hba (by simp [lexLe])
  | cons x xs ih =>
    intro b hab hba
    match b with
    | [] => exact absurd hab (by simp [lexLe])
    | y :: ys =>
      rcases lt_trichotomy x y with h | h | h
      · have : lexLe (y :: ys) (x :: xs) = false := by
          show (if y < x then true else if x < y then false else lexLe ys xs) = false
          rw [if_neg (asymm h), if_pos h]
        rw [this] at hba
        exact absurd hba (by simp)
      · subst h
        have hxs : lexLe xs ys = true := by
          have : lexLe (x :: xs) (x :: ys) = lexLe xs ys := by
            show (if x < x then true else if x < x then false else lexLe xs ys) = _
            rw [if_neg (lt_irrefl x), if_neg (lt_irrefl x)]
          rwa [this] at hab
        have hys : lexLe ys xs = true := by
          have : lexLe (x :: ys) (x :: xs) = lexLe ys xs := by
            show (if x < x then true else if x < x then false else lexLe ys xs) = _
            rw [if_neg (lt_irrefl x), if_neg (lt_irrefl x)]
          rwa [this] at hba
        rw [ih ys hxs hys]
      · have : lexLe (x :: xs) (y :: ys) = false := by
          show (if x < y then true else if y < x then false else lexLe xs ys) = false
          rw [if_neg (asymm h), if_pos h]
        rw [this] at hab
        exact absurd hab (by simp)

theorem lexLe_trans : ∀ a b c, lexLe a b = true → lexLe b c = true → lexLe a c = true := by
  intro a
  induction a with
  | nil => intro b c _ _; rfl
  | cons x xs ih =>
    intro b c hab hbc
    match b, c with
    | [], _ => exact absurd hab (by simp [lexLe])
    | _ :: _, [] => exact absurd hbc (by simp [lexLe])
    | y :: ys, z :: zs =>
      show (if x < z then true else if z < x then false else lexLe xs zs) = true
      have hxy : x < y ∨ (x = y ∧ lexLe xs ys = true) := by
        by_cases h : x < y
        · exact Or.inl h
        · right
          by_cases h' : y < x
          · have : lexLe (x :: xs) (y :: ys) = false := by
              show (if x < y then true else if y < x then false else lexLe xs ys) = false
              rw [if_neg h, if_pos h']
            rw [this] at hab
            exact absurd hab (by simp)
          · have hxe : x = y := le_antisymm (not_lt.mp h') (not_lt.mp h)
            refine ⟨hxe, ?_⟩
            have : lexLe (x :: xs) (y :: ys) = lexLe xs ys := by
              show (if x < y then true else if y < x then false else lexLe xs ys) = _
              rw [if_neg h, if_neg h']
            rwa [this] at hab
      have hyz : y < z ∨ (y = z ∧ lexLe ys zs = true) := by
        by_cases h : y < z
        · exact Or.inl h
        · right
          by_cases h' : z < y
          · have : lexLe (y :: ys) (z :: zs) = false := by
              show (if y < z then true else if z < y then false else lexLe ys zs) = false
              rw [if_neg h, if_pos h']
            rw [this] at hbc
            exact absurd hbc (by simp)
          · have hye : y = z := le_antisymm (not_lt.mp h') (not_lt.mp h)
            refine ⟨hye, ?_⟩
            have : lexLe (y :: ys) (z :: zs) = lexLe ys zs := by
              show (if y < z then true else if z < y then false else lexLe ys zs) = _
              rw [if_neg h, if_neg h']
            rwa [this] at hbc
      rcases hxy with h1 | ⟨h1, h1'⟩
      · rcases hyz with h2 | ⟨h2, _⟩
        · rw [if_pos (lt_trans h1 h2)]
        · subst h2; rw [if_pos h1]
      · subst h1
        rcases hyz with h2 | ⟨h2, h2'⟩
        · rw [if_pos h2]
        · subst h2
          rw [if_neg (lt_irrefl x), if_neg (lt_irrefl x)]
          exact ih ys zs h1' h2'

instance : IsTotal String strle := ⟨fun a b => lexLe_total a.data b.data⟩

instance : IsTrans String strle := ⟨fun a b c => lexLe_trans a.data b.data c.data⟩

instance : IsAntisymm String strle :=
  ⟨fun a b hab hba => by
    cases a; cases b
    exact congrArg String.mk (lexLe_antisymm _ _ hab hba)⟩

/-! ## Separator joins (Python `sep.join`) -/

/-- Model of Python `sep.join(pieces)` at the char-list level. -/
def joinSep (sep : List Char) : List (List Char) → List Char
  | [] => []
  | [x] => x
  | x :: y :: ys => x ++ sep ++ joinSep sep (y :: ys)

theorem joinSep_cons₂ (sep x : List Char) (y : List Char) (ys : List (List Char)) :
    joinSep sep (x :: y :: ys) = x ++ sep ++ joinSep sep (y :: ys) := rfl

theorem joinSep_ne_nil (sep : List Char) (x : List Char) (xs : List (List Char))
    (hx : x ≠ []) : joinSep sep (x :: xs) ≠ [] := by
  match xs with
  | [] => exact hx
  | y :: ys =>
    rw [joinSep_cons₂]
    intro h
    rcases List.append_eq_nil.mp h with ⟨h1, _⟩
    rcases List.append_eq_nil.mp h1 with ⟨h2, _⟩
    exact hx h2

/-- Splitting a single-character-separated join at the first separator:
if neither head piece contains the separator, heads and tails agree. -/
theorem sep_boundary (c : Char) : ∀ (x y a b : List Char), c ∉ x → c ∉ y →
    x ++ c :: a = y ++ c :: b → x = y ∧ a = b := by
  intro x
  induction x with
  | nil =>
    intro y a b _ hy h
    match y with
    | [] => simpa using h
    | d :: ys =>
      rw [List.nil_append] at h
      have hd : c = d := by
        have := congrArg (List.head? ·) h
        simpa using this
      exact absurd (hd ▸ List.mem_cons_self d ys) hy
  | cons e xs ih =>
    intro y a b hx hy h
    match y with
    | [] =>
      rw [List.nil_append] at h
      have hd : e = c := by
        have := congrArg (List.head? ·) h
        simpa using this
      exact absurd (hd ▸ List.mem_cons_self e xs) hx
    | d :: ys =>
      have hed : e = d := by
        have := congrArg (List.head? ·) h
        simpa using this
      subst hed
      have htl : xs ++ c :: a = ys ++ c :: b := by
        have := congrArg (List.tail ·) h
        simpa using this
      have := ih ys a b (fun hc => hx (List.mem_cons_of_mem _ hc))
        (fun hc => hy (List.mem_cons_of_mem _ hc)) htl
      exact ⟨by rw [this.1], this.2⟩

/-- A single-character-separated join of nonempty separator-free pieces is
injective (this is why `','.join` of sorted decimal ids is a faithful key). -/
theorem joinSep_single_inj (c : Char) :
    ∀ xs ys : List (List Char),
      (∀ x ∈ xs, x ≠ [] ∧ c ∉ x) → (∀ y ∈ ys, y ≠ [] ∧ c ∉ y) →
      joinSep [c] xs = joinSep [c] ys → xs = ys := by
  intro xs
  induction xs with
  | nil =>
    intro ys _ hys h
    match ys with
    | [] => rfl
    | y :: ys' =>
      exact absurd h.symm (joinSep_ne_nil [c] y ys' (hys y (List.mem_cons_self y ys')).1)
  | cons x xs' ih =>
    intro ys hxs hys h
    match ys with
    | [] =>
      exact absurd h (joinSep_ne_nil [c] x xs' (hxs x (List.mem_cons_self x xs')).1)
    | y :: ys' =>
      match xs', ys' with
      | [], [] => rw [show x = y from h]
      | [], z :: zs =>
        rw [joinSep_cons₂] at h
        have : c ∈ x := by
          rw [show x = joinSep [c] [x] from rfl, h]
          simp
        exact absurd this (hxs x (List.mem_cons_self x [])).2
      | w :: ws, [] =>
        rw [joinSep_cons₂] at h
        have : c ∈ y := by
          rw [show y = joinSep [c] [y] from rfl, ← h]
          simp
        exact absurd this (hys y (List.mem_cons_self y [])).2
      | w :: ws, z :: zs =>
        rw [joinSep_cons₂, joinSep_cons₂] at h
        rw [List.append_assoc, List.append_assoc] at h
        have hb := sep_boundary c x y _ _
          (hxs x (List.mem_cons_self x _)).2 (hys y (List.mem_cons_self y _)).2
          (by simpa using h)
        have htail := ih (z :: zs) (fun p hp => hxs p (List.mem_cons_of_mem _ hp))
          (fun p hp => hys p (List.mem_cons_of_mem _ hp)) hb.2
        rw [hb.1, htail]

/-! ## Canonical JSON parameter values (`json.dumps(params, sort_keys=True)`) -/

/-- Canonical JSON value for step parameters (null, bool, number, string). -/
inductive JVal where
  | jnull : JVal
  | jbool : Bool → JVal
  | jnum : Int → JVal
  | jstr : String → JVal
deriving DecidableEq, Repr

/-- JSON escaping of one character (quote and backslash). -/
def escChar (c : Char) : List Char := if c = '"' ∨ c = '\\' then ['\\', c] else [c]

/-- JSON escaping of a char list. -/
def escL : List Char → List Char
  | [] => []
  | c :: cs => escChar c ++ escL cs

/-- Serialization of one JSON value, following `json.dumps`. -/
def jserL : JVal → List Char
  | .jnull => ['n', 'u', 'l', 'l']
  | .jbool true => ['t', 'r', 'u', 'e']
  | .jbool false => ['f', 'a', 'l', 's', 'e']
  | .jnum i => intStrL i
  | .jstr s => '"' :: (escL s.data ++ ['"'])

/-- Serialization of one `"key": value` pair of a JSON object. -/
def encPairL (p : String × JVal) : List Char :=
  '"' :: (escL p.1.data ++ '"' :: ':' :: ' ' :: jserL p.2)

/-- Key comparison used by `sort_keys=True`. -/
def pkeyle (p q : String × JVal) : Prop := strle p.1 q.1

instance : DecidableRel pkeyle := fun p q => by
  unfold pkeyle
  infer_instance

/-- Model of `json.dumps(params, sort_keys=True)`: a parameter map is an
association list; keys are sorted and pairs joined inside braces with the
default `", "` item separator and `": "` key separator. -/
def dumpsL (ps : List (String × JVal)) : List Char :=
  '\x7b' :: (joinSep [',', ' '] ((List.insertionSort pkeyle ps).map encPairL) ++ ['\x7d'])

/-- A canonical (Python-dict-like) parameter list is presented sorted by key. -/
def paramsSorted (ps : List (String × JVal)) : Prop := List.Sorted pkeyle ps

theorem escChar_ne_nil (c : Char) : escChar c ≠ [] := by
  unfold escChar
  split <;> simp

theorem escL_cons (c : Char) (cs : List Char) : escL (c :: cs) = escChar c ++ escL cs := rfl

theorem escL_inj : ∀ as bs : List Char, escL as = escL bs → as = bs := by
  intro as
  induction as with
  | nil =>
    intro bs h
    match bs with
    | [] => rfl
    | b :: bs' =>
      rw [show escL [] = [] from rfl, escL_cons] at h
      rcases List.append_eq_nil.mp h.symm with ⟨h1, _⟩
      exact absurd h1 (escChar_ne_nil b)
  | cons a as' ih =>
    intro bs h
    match bs with
    | [] =>
      rw [show escL [] = [] from rfl, escL_cons] at h
      rcases List.append_eq_nil.mp h with ⟨h1, _⟩
      exact absurd h1 (escChar_ne_nil a)
    | b :: bs' =>
      rw [escL_cons, escL_cons] at h
      by_cases ha : a = '"' ∨ a = '\\' <;> by_cases hb : b = '"' ∨ b = '\\'
      · rw [escChar, if_pos ha, escChar, if_pos hb] at h
        injection h with h1 h2
        injection h2 with h3 h4
        rw [h3, ih bs' h4]
      · rw [escChar, if_pos ha, escChar, if_neg hb] at h
        injection h with h1 _
        exact absurd (Or.inr h1.symm) hb
      · rw [escChar, if_neg ha, escChar, if_pos hb] at h
        injection h with h1 _
        exact absurd (Or.inr h1) ha
      · rw [escChar, if_neg ha, escChar, if_neg hb] at h
        injection h with h1 h2
        rw [h1, ih bs' h2]

theorem string_data_inj {s t : String} (h : s.data = t.data) : s = t := by
  cases s; cases t; exact congrArg String.mk h

theorem intStrL_head (i : Int) :
    ∃ c cs, intStrL i = c :: cs ∧ (c = '-' ∨ c ∈ digitChars) := by
  unfold intStrL
  split
  · exact ⟨'-', natStrL i.natAbs, rfl, Or.inl rfl⟩
  · match h : natStrL i.toNat with
    | [] => exact absurd h (natStrL_ne_nil _)
    | c :: cs =>
      exact ⟨c, cs, rfl, Or.inr (natStrL_digits _ c (h ▸ List.mem_cons_self c cs))⟩

theorem intStrL_inj {i j : Int} (h : intStrL i = intStrL j) : i = j := by
  unfold intStrL at h
  by_cases hi : i < 0 <;> by_cases hj : j < 0
  · rw [if_pos hi, if_pos hj] at h
    injection h with _ h2
    have := natStrL_inj _ _ h2
    omega
  · rw [if_pos hi, if_neg hj] at h
    obtain ⟨c, cs, hc, hcd⟩ :=
      (show ∃ c cs, natStrL j.toNat = c :: cs ∧ c ∈ digitChars by
        match hnp : natStrL j.toNat with
        | [] => exact absurd hnp (natStrL_ne_nil _)
        | c :: cs =>
          exact ⟨c, cs, rfl, natStrL_digits _ c (hnp ▸ List.mem_cons_self c cs)⟩)
    rw [hc] at h
    injection h with h1 _
    rw [← h1] at hcd
    exact absurd hcd (by decide)
  · rw [if_neg hi, if_pos hj] at h
    obtain ⟨c, cs, hc, hcd⟩ :=
      (show ∃ c cs, natStrL i.toNat = c :: cs ∧ c ∈ digitChars by
        match hnp : natStrL i.toNat with
        | [] => exact absurd hnp (natStrL_ne_nil _)
        | c :: cs =>
          exact ⟨c, cs, rfl, natStrL_digits _ c (hnp ▸ List.mem_cons_self c cs)⟩)
    rw [hc] at h
    injection h with h1 _
    rw [h1] at hcd
    exact absurd hcd (by decide)
  · rw [if_neg hi, if_neg hj] at h
    have := natStrL_inj _ _ h
    omega

/-- Constructor discriminator read off the first serialized character. -/
def jclass : JVal → Nat
  | .jnull => 0
  | .jbool true => 1
  | .jbool false => 2
  | .jnum _ => 3
  | .jstr _ => 4

/-- Character-level counterpart of `jclass`. -/
def cclass (c : Char) : Nat :=
  if c = 'n' then 0 else if c = 't' then 1 else if c = 'f' then 2
  else if c = '"' then 4 else 3

theorem cclass_digit (c : Char) (h : c ∈ digitChars) : cclass c = 3 := by
  fin_cases h <;> decide

theorem jserL_head_class (v : JVal) :
    ∃ c cs, jserL v = c :: cs ∧ cclass c = jclass v := by
  cases v with
  | jnull => exact ⟨'n', _, rfl, by decide⟩
  | jbool b =>
    cases b
    · exact ⟨'f', _, rfl, by decide⟩
    · exact ⟨'t', _, rfl, by decide⟩
  | jnum i =>
    obtain ⟨c, cs, hc, hd⟩ := intStrL_head i
    refine ⟨c, cs, hc, ?_⟩
    rcases hd with rfl | hd
    · rfl
    · rw [cclass_digit c hd]
      rfl
  | jstr s => exact ⟨'"', _, rfl, rfl⟩

theorem jserL_inj : ∀ v w : JVal, jserL v = jserL w → v = w := by
  intro v w h
  have hclass : jclass v = jclass w := by
    obtain ⟨c1, cs1, e1, k1⟩ := jserL_head_class v
    obtain ⟨c2, cs2, e2, k2⟩ := jserL_head_class w
    rw [e1, e2] at h
    injection h with h1 _
    rw [← k1, ← k2, h1]
  cases v with
  | jnull =>
    cases w with
    | jnull => rfl
    | jbool b => cases b <;> exact absurd hclass (by simp [jclass])
    | jnum j => exact absurd hclass (by simp [jclass])
    | jstr t => exact absurd hclass (by simp [jclass])
  | jbool b =>
    cases w with
    | jnull => cases b <;> exact absurd hclass (by simp [jclass])
    | jbool b' => cases b <;> cases b' <;> first | rfl | exact absurd hclass (by simp [jclass])
    | jnum j => cases b <;> exact absurd hclass (by simp [jclass])
    | jstr t => cases b <;> exact absurd hclass (by simp [jclass])
  | jnum i =>
    cases w with
    | jnull => exact absurd hclass (by simp [jclass])
    | jbool b => cases b <;> exact absurd hclass (by simp [jclass])
    | jnum j => exact congrArg JVal.jnum (intStrL_inj h)
    | jstr t => exact absurd hclass (by simp [jclass])
  | jstr s =>
    cases w with
    | jnull => exact absurd hclass (by simp [jclass])
    | jbool b => cases b <;> exact absurd hclass (by simp [jclass])
    | jnum j => exact absurd hclass (by simp [jclass])
    | jstr t =>
      have h1 : escL s.data ++ ['"'] = escL t.data ++ ['"'] := by
        simpa [jserL] using congrArg List.tail h
      have h2 : escL s.data = escL t.data := List.append_cancel_right h1
      exact congrArg JVal.jstr (string_data_inj (escL_inj _ _ h2))

theorem encPairL_value_inj {k : String} {v1 v2 : JVal}
    (h : encPairL (k, v1) = encPairL (k, v2)) : v1 = v2 := by
  unfold encPairL at h
  injection h with _ h2
  have h3 := List.append_cancel_left h2
  injection h3 with _ h4
  injection h4 with _ h5
  injection h5 with _ h6
  exact jserL_inj _ _ h6

theorem joinSep_cons_ne (sep x : List Char) (l : List (List Char)) (hl : l ≠ []) :
    joinSep sep (x :: l) = x ++ sep ++ joinSep sep l := by
  match l with
  | y :: ys => rfl

theorem joinSep_head_decomp (sep : List Char) :
    ∀ (x : List Char) (B : List (List Char)),
      joinSep sep (x :: B) = x ++ ((B.map (sep ++ ·)).flatten) := by
  intro x B
  induction B generalizing x with
  | nil => simp [joinSep]
  | cons b B' ih =>
    rw [joinSep_cons₂, ih b]
    simp [List.append_assoc]

theorem joinSep_decomp (sep : List Char) :
    ∀ (A : List (List Char)) (x : List Char) (B : List (List Char)),
      joinSep sep (A ++ x :: B) =
        ((A.map (· ++ sep)).flatten) ++ (x ++ ((B.map (sep ++ ·)).flatten)) := by
  intro A
  induction A with
  | nil => intro x B; simpa using joinSep_head_decomp sep x B
  | cons a A' ih =>
    intro x B
    have hne : A' ++ x :: B ≠ [] := by
      cases A' <;> simp
    rw [List.cons_append, joinSep_cons_ne sep a _ hne, ih x B]
    simp [List.append_assoc]

theorem joinSep_middle_inj (sep : List Char) (A B : List (List Char)) (x y : List Char)
    (h : joinSep sep (A ++ x :: B) = joinSep sep (A ++ y :: B)) : x = y := by
  rw [joinSep_decomp, joinSep_decomp] at h
  have h1 := List.append_cancel_left h
  exact List.append_cancel_right h1

/-- Keys, not values, decide the canonical ordering: transporting
key-sortedness along a value change. -/
theorem paramsSorted_congr_keys {l1 l2 : List (String × JVal)}
    (hk : l1.map Prod.fst = l2.map Prod.fst) (h : paramsSorted l1) : paramsSorted l2 := by
  have h' : List.Pairwise (fun a b : String × JVal => strle a.1 b.1) l1 := h
  have h1 : List.Pairwise strle (l1.map Prod.fst) := (List.pairwise_map).mpr h'
  rw [hk] at h1
  have h2 : List.Pairwise (fun a b : String × JVal => strle a.1 b.1) l2 :=
    (List.pairwise_map).mp h1
  exact h2

/-- Changing one parameter's value changes the canonical dump. -/
theorem dumpsL_value_change (A B : List (String × JVal)) (k : String) (v1 v2 : JVal)
    (hs : paramsSorted (A ++ (k, v1) :: B)) (hne : v1 ≠ v2) :
    dumpsL (A ++ (k, v1) :: B) ≠ dumpsL (A ++ (k, v2) :: B) := by
  intro h
  have hs2 : paramsSorted (A ++ (k, v2) :: B) :=
    paramsSorted_congr_keys (by simp) hs
  unfold dumpsL at h
  rw [hs.insertionSort_eq, hs2.insertionSort_eq] at h
  injection h with _ h1
  have h2 := List.append_cancel_right h1
  rw [List.map_append, List.map_cons, List.map_append, List.map_cons] at h2
  have h3 := joinSep_middle_inj [',', ' '] (A.map encPairL) (B.map encPairL) _ _ h2
  exact hne (encPairL_value_inj h3)

/-! ## The step cache key (`PipelineRunner._generate_step_hash`) -/

/-- Model of `','.join(sorted(map(str, input_ids)))`. -/
def sortedIdsL (ids : List Nat) : List Char :=
  joinSep [','] ((List.insertionSort strle (ids.map natStr)).map String.data)

/-- Model of `PipelineRunner._generate_step_hash`: the components
`[processor, func_hash, ','.join(sorted(map(str, input_ids))), json.dumps(params, sort_keys=True)]`
joined by `'|'`; SHA-256 of the preimage is idealised as injective, so the
preimage string itself stands for the hex digest. -/
def generateStepHash (processor funcHash : String) (inputIds : List Nat)
    (params : List (String × JVal)) : String :=
  String.mk (joinSep ['|'] [processor.data, funcHash.data, sortedIdsL inputIds, dumpsL params])

theorem sortedIdsL_perm {ids1 ids2 : List Nat} (h : List.Perm ids1 ids2) :
    sortedIdsL ids1 = sortedIdsL ids2 := by
  unfold sortedIdsL
  congr 1
  congr 1
  have hp : List.Perm (ids1.map natStr) (ids2.map natStr) := h.map natStr
  have h1 : List.Perm (List.insertionSort strle (ids1.map natStr))
      (List.insertionSort strle (ids2.map natStr)) :=
    ((List.perm_insertionSort strle _).trans hp).trans
      (List.perm_insertionSort strle _).symm
  exact List.eq_of_perm_of_sorted h1
    (List.sorted_insertionSort strle _) (List.sorted_insertionSort strle _)

theorem sortedIdsL_inj {ids1 ids2 : List Nat} (h : sortedIdsL ids1 = sortedIdsL ids2) :
    List.Perm ids1 ids2 := by
  unfold sortedIdsL at h
  have hpieces : ∀ (ids : List Nat) (x : List Char),
      x ∈ (List.insertionSort strle (ids.map natStr)).map String.data →
      x ≠ [] ∧ ',' ∉ x := by
    intro ids x hx
    obtain ⟨s, hs, rfl⟩ := List.mem_map.mp hx
    rw [List.mem_insertionSort] at hs
    obtain ⟨n, _, rfl⟩ := List.mem_map.mp hs
    exact ⟨natStrL_ne_nil n, natStrL_no_comma n⟩
  have h1 := joinSep_single_inj ',' _ _ (hpieces ids1) (hpieces ids2) h
  have h2 : List.insertionSort strle (ids1.map natStr)
      = List.insertionSort strle (ids2.map natStr) := by
    have hdata : Function.Injective (String.data) := fun a b hab => string_data_inj hab
    exact List.map_injective_iff.mpr hdata h1
  have h3 : List.Perm (ids1.map natStr) (ids2.map natStr) :=
    ((List.perm_insertionSort strle _).symm.trans (h2 ▸ List.perm_insertionSort strle _))
  have h4 : ((ids1 : Multiset Nat).map natStr) = ((ids2 : Multiset Nat).map natStr) := by
    simpa [Multiset.map_coe] using Multiset.coe_eq_coe.mpr h3
  exact Multiset.coe_eq_coe.mp (Multiset.map_injective natStr_inj h4)

/-! ## Data model (src/core/models.py)

Rows are append-only and `created_at` strictly follows insertion order, so
`ORDER BY created_at DESC LIMIT 1` is modelled by the last matching list
element; `rawStores` (files copied into raw storage), `procCalls` (processor
function invocations) and `nextUid` (the uuid4 generator) are
instrumentation counters for effects that happen outside the database. -/

/-- Row of `data_entries` (`DataEntry` in models.py); the `parents` and
`tags` ORM relationships live in the separate `relationship` and `dataTag`
tables of `DB`. -/
structure DataEntry where
  id : Nat
  type : String
  path : String
  originalPath : Option String := none
  description : String := ""
deriving DecidableEq, Repr

/-- Row of `tags` (name is looked up before insertion, keeping it unique). -/
structure TagRow where
  id : Nat
  name : String
deriving DecidableEq, Repr

/-- Row of `step_cache`. -/
structure StepCacheRow where
  inputHash : String
  outputId : Nat
deriving DecidableEq, Repr

/-- Row of `file_mtime_cache`. -/
structure MTimeRow where
  filePath : String
  dataEntryId : Nat
  lastMtime : Int
deriving DecidableEq, Repr

/-- The persistent store plus effect counters. -/
structure DB where
  entries : List DataEntry := []
  tags : List TagRow := []
  dataTag : List (Nat × Nat) := []
  relationship : List (Nat × Nat) := []
  stepCache : List StepCacheRow := []
  mtimeCache : List MTimeRow := []
  nextEntryId : Nat := 1
  nextTagId : Nat := 1
  nextUid : Nat := 0
  procCalls : Nat := 0
  rawStores : Nat := 0
  exportsMeta : List (String × Nat) := []
deriving DecidableEq, Repr

/-- Input descriptor handed to a processor function (`InputPath` in
processing.py). -/
structure InputPath where
  path : String
  originalPath : Option String
  tags : List String
  id : Nat
deriving DecidableEq, Repr

/-- Argument shape of a processor call: a `single` processor receives one
descriptor, a `multi` processor a list of them. -/
inductive InputArg where
  | one : InputPath → InputArg
  | many : List InputPath → InputArg

/-- Return value of a processor function: `None`, one string, a list of
strings, or anything else (`rbad`, the contract-violation case). -/
inductive TagRet where
  | rnone : TagRet
  | rstr : String → TagRet
  | rlist : List String → TagRet
  | rbad : TagRet

/-- Registry record for one processor (`ProcessorRegistry._processors`
value): input arity, output extension, implementation hash and the wrapped
function. -/
structure ProcDesc where
  inputType : String
  outputExt : String
  fhash : String
  func : InputArg → String → List (String × JVal) → TagRet

/-- Model of the process-wide processor registry. -/
def Registry : Type := List (String × ProcDesc)

/-- Error taxonomy of the pipeline core.  The source raises `KeyError` for
an unregistered processor and `ValueError` for the two single-arity
violations and for a bad processor return shape; `entryMissing` models an
`AttributeError` on dereferencing a missing `DataEntry`; `integrityError`
models the sqlite composite-primary-key violation on `data_relationship`;
`noMatch` models the `FileNotFoundError` for an empty ingestion match set. -/
inductive PErr where
  | unknownProcessor : String → PErr
  | arityEmptySingle : PErr
  | arityManySingle : PErr
  | unknownInputType : String → PErr
  | contractViolation : PErr
  | entryMissing : Nat → PErr
  | integrityError : PErr
  | noMatch : PErr
deriving DecidableEq, Repr

/-- Model of `session.query(DataEntry).get(i)` / `session.get(DataEntry, i)`. -/
def getEntry (db : DB) (i : Nat) : Option DataEntry :=
  db.entries.find? (fun e => e.id == i)

/-- Model of `session.query(Tag).filter_by(name=name).first()` (with
autoflush, so rows added earlier in the same pass are visible). -/
def lookupTag (db : DB) (name : String) : Option TagRow :=
  db.tags.find? (fun t => t.name == name)

def lookupTagById (db : DB) (i : Nat) : Option TagRow :=
  db.tags.find? (fun t => t.id == i)

/-- Tag names currently associated with an artifact
(`[t.name for t in data.tags]`). -/
def tagNamesOf (db : DB) (eid : Nat) : List String :=
  (db.dataTag.filter (fun p => p.1 == eid)).filterMap
    (fun p => (lookupTagById db p.2).map TagRow.name)

/-- Model of the tag-attachment snippet shared by
`DataProcessor._add_auto_tags` and `PipelineRunner._load_initial_files`:
look the Tag row up by name, create it if absent, then `entry.tags.append(tag)`
— note the append is unconditional, so an association row is added even when
the artifact already holds this tag. -/
def attachTag (db : DB) (entryId : Nat) (name : String) : DB :=
  match lookupTag db name with
  | some t => { db with dataTag := db.dataTag ++ [(entryId, t.id)] }
  | none =>
    { db with tags := db.tags ++ [{ id := db.nextTagId, name := name }],
              nextTagId := db.nextTagId + 1,
              dataTag := db.dataTag ++ [(entryId, db.nextTagId)] }

/-- Folding `attachTag` over a tag-name list (`for tag_name in tags: ...`). -/
def addAutoTags (db : DB) (entryId : Nat) (names : List String) : DB :=
  names.foldl (fun d n => attachTag d entryId n) db

/-! ## Data Processor (src/core/processing.py) -/

/-- Model of `ProcessorRegistry.get_processor`. -/
def getProcessor (reg : Registry) (name : String) : Except PErr ProcDesc :=
  match List.lookup name reg with
  | some p => Except.ok p
  | none => Except.error (PErr.unknownProcessor name)

/-- Model of `DataProcessor._get_single_path` (also one iteration of
`_get_multiple_paths`): load one input artifact into a descriptor. -/
def loadDescriptor (db : DB) (i : Nat) : Except PErr (InputPath × DataEntry) :=
  match getEntry db i with
  | none => Except.error (PErr.entryMissing i)
  | some e =>
    Except.ok ({ path := e.path, originalPath := e.originalPath,
                 tags := tagNamesOf db e.id, id := e.id }, e)

/-- Model of `DataProcessor._get_multiple_paths`. -/
def loadDescriptors (db : DB) : List Nat → Except PErr (List InputPath × List DataEntry)
  | [] => Except.ok ([], [])
  | i :: rest =>
    match loadDescriptor db i with
    | Except.error er => Except.error er
    | Except.ok (d, e) =>
      match loadDescriptors db rest with
      | Except.error er => Except.error er
      | Except.ok (ds, es) => Except.ok (d :: ds, e :: es)

/-- Model of `DataProcessor._execute_processor`: allocate the output path,
invoke the processor function (counted by `procCalls`), and normalize its
return value, rejecting any shape that is not `None`/str/list. -/
def executeProcessor (db : DB) (proc : ProcDesc) (arg : InputArg)
    (params : List (String × JVal)) : Except PErr (DB × String × List String) :=
  match proc.func arg ("processed/" ++ natStr db.nextUid ++ proc.outputExt) params with
  | TagRet.rnone =>
    Except.ok ({ db with nextUid := db.nextUid + 1, procCalls := db.procCalls + 1 },
      "processed/" ++ natStr db.nextUid ++ proc.outputExt, [])
  | TagRet.rstr s =>
    Except.ok ({ db with nextUid := db.nextUid + 1, procCalls := db.procCalls + 1 },
      "processed/" ++ natStr db.nextUid ++ proc.outputExt, [s])
  | TagRet.rlist l =>
    Except.ok ({ db with nextUid := db.nextUid + 1, procCalls := db.procCalls + 1 },
      "processed/" ++ natStr db.nextUid ++ proc.outputExt, l)
  | TagRet.rbad => Except.error PErr.contractViolation

/-- Provenance text of a processed artifact (`f"Processed by {processor_name},
id: {input_ids}, params: {params}"`; the Python `repr` of ids and params is
rendered canonically). -/
def describeRun (pname idsRepr : String) (params : List (String × JVal)) : String :=
  "Processed by " ++ pname ++ ", id: " ++ idsRepr ++ ", params: " ++ String.mk (dumpsL params)

/-- Python `repr` of a list of ids. -/
def listRepr (ids : List Nat) : String :=
  "[" ++ String.mk (joinSep [',', ' '] (ids.map natStrL)) ++ "]"

/-- Tail of `DataProcessor.run`: create the `processed` entry with `parents`
set to the resolved input entries, attach the returned tags, and commit.
Committing flushes one `data_relationship` row per parent; the table's
composite primary key (parent_id, child_id) makes the commit fail when the
same parent appears twice. -/
def runEntry (db : DB) (pname idsRepr : String) (params : List (String × JVal))
    (outPath : String) : DataEntry :=
  { id := db.nextEntryId, type := "processed", path := outPath,
    originalPath := none, description := describeRun pname idsRepr params }

def finishRun (db : DB) (pname idsRepr : String) (params : List (String × JVal))
    (outPath : String) (parents : List DataEntry) (rtags : List String) :
    Except PErr (DB × DataEntry) :=
  if (parents.map DataEntry.id).Nodup then
    Except.ok (addAutoTags
      { db with entries := db.entries ++ [runEntry db pname idsRepr params outPath],
                nextEntryId := db.nextEntryId + 1,
                relationship := db.relationship ++
                  (parents.map DataEntry.id).map
                    (fun p => (p, (runEntry db pname idsRepr params outPath).id)) }
      (runEntry db pname idsRepr params outPath).id rtags,
      runEntry db pname idsRepr params outPath)
  else Except.error PErr.integrityError

/-- Model of `DataProcessor.run`.  A `single` processor demands exactly one
input id (two distinct `ValueError`s for the empty and the too-many case);
a `multi` processor takes its input list as given — the source has no
emptiness check on this branch. -/
def runProcessor (reg : Registry) (db : DB) (pname : String) (inputIds : List Nat)
    (params : List (String × JVal)) : Except PErr (DB × DataEntry) :=
  match getProcessor reg pname with
  | Except.error er => Except.error er
  | Except.ok proc =>
    if proc.inputType = "single" then
      match inputIds with
      | [] => Except.error PErr.arityEmptySingle
      | [i] =>
        (match loadDescriptor db i with
        | Except.error er => Except.error er
        | Except.ok (d, data) =>
          match executeProcessor db proc (InputArg.one d) params with
          | Except.error er => Except.error er
          | Except.ok (db1, outPath, rtags) =>
            finishRun db1 pname (natStr i) params outPath [data] rtags)
      | _ :: _ :: _ => Except.error PErr.arityManySingle
    else if proc.inputType = "multi" then
      match loadDescriptors db inputIds with
      | Except.error er => Except.error er
      | Except.ok (ds, es) =>
        match executeProcessor db proc (InputArg.many ds) params with
        | Except.error er => Except.error er
        | Except.ok (db1, outPath, rtags) =>
          finishRun db1 pname (listRepr inputIds) params outPath es rtags
    else Except.error (PErr.unknownInputType proc.inputType)

/-! ## Initial ingestion (`PipelineRunner._load_initial_files`)

The glob/regex include–exclude evaluation is performed by the external
`glob` and `re` libraries; the model receives its output: the sorted list of
matched files, the per-file include-spec tag map `specTags` and the
filesystem's mtime function `fsMtime`. -/

/-- Ingestion section of the pipeline configuration (`InitialLoadConfig`
without the include/exclude patterns, which are consumed by the glob
evaluation). -/
structure InitialLoadConfig where
  dataType : String := "raw"
  tags : List String := []

/-- Most recent `file_mtime_cache` row for a path
(`.filter(file_path == f).order_by(created_at.desc()).first()`). -/
def latestMTime (db : DB) (f : String) : Option MTimeRow :=
  (db.mtimeCache.filter (fun r => r.filePath == f)).getLast?

/-- Model of `FileStorage.store_raw_data`: copy the file under a fresh
unique name in `raw/` (counted by `rawStores`). -/
def storeRawData (db : DB) : DB × String :=
  ({ db with nextUid := db.nextUid + 1, rawStores := db.rawStores + 1 },
   "raw/" ++ natStr db.nextUid)

/-- Fresh-ingestion branch of the per-file loop: copy the file, create the
artifact row with `original_path` set, and insert a fresh mtime-cache row. -/
def freshLoad (cfg : InitialLoadConfig) (db : DB) (f : String) (current : Int) :
    DB × Nat :=
  let (db1, storedPath) := storeRawData db
  let e : DataEntry := { id := db1.nextEntryId, type := cfg.dataType, path := storedPath,
                         originalPath := some f,
                         description := "Auto-loaded from: " ++ f }
  let db2 := { db1 with entries := db1.entries ++ [e],
                        nextEntryId := db1.nextEntryId + 1,
                        mtimeCache := db1.mtimeCache ++
                          [{ filePath := f, dataEntryId := e.id, lastMtime := current }] }
  (db2, e.id)

/-- Per-file body of `_load_initial_files`: consult the latest mtime-cache
row; reuse the recorded artifact when the stored mtime equals the current
one, otherwise re-ingest; then attach the file's tags (include-spec tags
plus the path itself) and the config's global tags to the chosen artifact. -/
def loadOneFile (cfg : InitialLoadConfig) (fsMtime : String → Int)
    (specTags : String → List String) (db : DB) (f : String) : Except PErr (DB × Nat) :=
  let fileTags := specTags f ++ [f]
  let current := fsMtime f
  let finishTags : DB × Nat → Except PErr (DB × Nat) := fun (db1, entryId) =>
    Except.ok (addAutoTags (addAutoTags db1 entryId fileTags) entryId cfg.tags, entryId)
  match latestMTime db f with
  | some row =>
    if row.lastMtime = current then
      match getEntry db row.dataEntryId with
      | none => Except.error (PErr.entryMissing row.dataEntryId)
      | some e => finishTags (db, e.id)
    else finishTags (freshLoad cfg db f current)
  | none => finishTags (freshLoad cfg db f current)

/-- Fold of `loadOneFile` over the matched files, collecting the resulting
artifact ids in file order. -/
def loadFilesGo (cfg : InitialLoadConfig) (fsMtime : String → Int)
    (specTags : String → List String) : DB → List String → Except PErr (DB × List Nat)
  | db, [] => Except.ok (db, [])
  | db, f :: rest =>
    match loadOneFile cfg fsMtime specTags db f with
    | Except.error er => Except.error er
    | Except.ok (db1, i) =>
      match loadFilesGo cfg fsMtime specTags db1 rest with
      | Except.error er => Except.error er
      | Except.ok (db2, ids) => Except.ok (db2, i :: ids)

/-- Model of `PipelineRunner._load_initial_files` from the point where the
matched file list is known: an empty match set aborts with `noMatch`
(`FileNotFoundError` in the source); otherwise every file is processed in
order and the artifact id list returned. -/
def loadInitialFiles (cfg : InitialLoadConfig) (fsMtime : String → Int)
    (specTags : String → List String) (db : DB) (files : List String) :
    Except PErr (DB × List Nat) :=
  if files.isEmpty then Except.error PErr.noMatch
  else loadFilesGo cfg fsMtime specTags db files

/-! ## Pipeline Runner (src/core/pipeline.py) -/

/-- Step `inputs` field: a single variable name or a list of names. -/
inductive StepInputs where
  | one : String → StepInputs
  | many : List String → StepInputs
deriving DecidableEq, Repr

/-- Declared pipeline step (`PipelineStep` dataclass; `export` is renamed
`exportName` because `export` is a Lean keyword). -/
structure PipelineStep where
  processor : String
  inputs : StepInputs
  params : List (String × JVal)
  outputVar : String
  cache : Bool := true
  forceRerun : Bool := false
  exportName : Option String := none

/-- Execution context: symbolic variable name to artifact-id list;
`context.get(key, [])` makes the total-function model with `[]` default
faithful. -/
def Ctx : Type := String → List Nat

/-- Model of `PipelineRunner._resolve_inputs`. -/
def resolveInputs (ctx : Ctx) : StepInputs → List Nat
  | StepInputs.one s => ctx s
  | StepInputs.many l => (l.map ctx).flatten

/-- Variable names a step's `inputs` field references. -/
def inputVars : StepInputs → List String
  | StepInputs.one s => [s]
  | StepInputs.many l => l

/-- Assignment `self.context[k] = v`. -/
def updCtx (ctx : Ctx) (k : String) (v : List Nat) : Ctx :=
  fun k' => if k' = k then v else ctx k'

/-- Most recent `step_cache` row for a hash
(`.filter(input_hash == h).order_by(created_at.desc()).first()`). -/
def lookupStepCache (db : DB) (h : String) : Option StepCacheRow :=
  (db.stepCache.filter (fun r => r.inputHash == h)).getLast?

/-- Model of `FileStorage.create_export_file` plus the `shutil.copy` to the
export path: records the export-manifest entry. -/
def createExportFile (db : DB) (name : String) (fid : Nat) : DB :=
  { db with exportsMeta := db.exportsMeta ++ [(name, fid)] }

/-- Rendering of the step's `inputs` field used in provenance text. -/
def inputsRepr : StepInputs → String
  | StepInputs.one s => s
  | StepInputs.many l => "[" ++ String.mk (joinSep [',', ' '] (l.map String.data)) ++ "]"

/-- Model of `PipelineRunner._log_step`: prepend the provenance note to the
output artifact's description. -/
def logStep (db : DB) (step : PipelineStep) (outputId : Nat) : DB :=
  { db with entries := db.entries.map (fun e =>
      if e.id = outputId then
        { e with description := "Pipeline Step: " ++ step.processor ++ ", Inputs: "
            ++ inputsRepr step.inputs ++ "\n" ++ e.description }
      else e) }

/-- Fresh-execution path of one step (the code after the cache check in
`PipelineRunner.execute`): run the Data Processor, insert a `step_cache` row
when `cache` is set, export when requested, publish the output variable and
log the step. -/
def execFresh (reg : Registry) (db : DB) (ctx : Ctx) (step : PipelineStep)
    (resolved : List Nat) (stepHash : String) : Except PErr (DB × Ctx) :=
  match runProcessor reg db step.processor resolved step.params with
  | Except.error er => Except.error er
  | Except.ok (db1, e) =>
    let db2 := if step.cache
               then { db1 with stepCache := db1.stepCache ++
                        [{ inputHash := stepHash, outputId := e.id }] }
               else db1
    let db3 := match step.exportName with
               | none => db2
               | some nm => createExportFile db2 nm e.id
    Except.ok (logStep db3 step e.id, updCtx ctx step.outputVar [e.id])

/-- One iteration of the step loop in `PipelineRunner.execute`: resolve
inputs, fetch the processor, compute the cache key, and either reuse the
most recent cached output (when a row exists, `force_rerun` is unset and
`cache` is set — publishing the cached id, copying to the export path if
configured, and touching nothing else) or execute freshly. -/
def execStep (reg : Registry) (db : DB) (ctx : Ctx) (step : PipelineStep) :
    Except PErr (DB × Ctx) :=
  let resolved := resolveInputs ctx step.inputs
  match getProcessor reg step.processor with
  | Except.error er => Except.error er
  | Except.ok proc =>
  let stepHash := generateStepHash step.processor proc.fhash resolved step.params
  match lookupStepCache db stepHash with
  | some cached =>
    if !step.forceRerun && step.cache then
      let ctx1 := updCtx ctx step.outputVar [cached.outputId]
      match step.exportName with
      | none => Except.ok (db, ctx1)
      | some nm =>
        match getEntry db cached.outputId with
        | none => Except.error (PErr.entryMissing cached.outputId)
        | some e => Except.ok (createExportFile db nm e.id, ctx1)
    else execFresh reg db ctx step resolved stepHash
  | none => execFresh reg db ctx step resolved stepHash

/-- The step loop of `PipelineRunner.execute`. -/
def execSteps (reg : Registry) : DB → Ctx → List PipelineStep → Except PErr (DB × Ctx)
  | db, ctx, [] => Except.ok (db, ctx)
  | db, ctx, s :: rest =>
    match execStep reg db ctx s with
    | Except.error er => Except.error er
    | Except.ok (db1, ctx1) => execSteps reg db1 ctx1 rest

/-- Model of `PipelineRunner.execute`: ingest, seed the context with
`initial`, then run the steps in declaration order. -/
def executePipeline (reg : Registry) (cfg : InitialLoadConfig) (fsMtime : String → Int)
    (specTags : String → List String) (db : DB) (files : List String)
    (steps : List PipelineStep) : Except PErr (DB × Ctx) :=
  match loadInitialFiles cfg fsMtime specTags db files with
  | Except.error er => Except.error er
  | Except.ok (db1, ids) => execSteps reg db1 (updCtx (fun _ => []) "initial" ids) steps

/-! ## Lineage tree builder (src/commands/data_commands/trace.py) -/

/-- Tree node: one artifact and its children, which are its parents in the
storage direction (`build_tree` inverts the edge deliberately); the
display-only `depth` and `is_last` fields are omitted. -/
inductive TreeNode where
  | node : DataEntry → List TreeNode → TreeNode

def TreeNode.entry : TreeNode → DataEntry
  | TreeNode.node e _ => e

def TreeNode.children : TreeNode → List TreeNode
  | TreeNode.node _ c => c

/-- Parent artifacts of an entry in edge-insertion order (`entry.parents`). -/
def parentsOf (db : DB) (cid : Nat) : List DataEntry :=
  (db.relationship.filter (fun pr => pr.2 == cid)).filterMap (fun pr => getEntry db pr.1)

/-- Gas-driven form of `build_tree`; the gas is the remaining depth budget
`max_depth - current_depth`. -/
def buildTreeG (db : DB) : Nat → DataEntry → Option TreeNode
  | 0, _ => none
  | gas + 1, e =>
    some (TreeNode.node e ((parentsOf db e.id).filterMap (buildTreeG db gas)))

/-- Model of `build_tree(entry, max_depth, current_depth)`. -/
def buildTree (db : DB) (e : DataEntry) (maxDepth curDepth : Nat) : Option TreeNode :=
  buildTreeG db (maxDepth - curDepth) e

/-- Faithfulness of the gas-driven form: `buildTree` satisfies the source's
recursion (return `None` at the depth bound, else a node whose children are
the trees of the parents that did not hit the bound). -/
theorem buildTree_eq (db : DB) (e : DataEntry) (maxDepth curDepth : Nat) :
    buildTree db e maxDepth curDepth =
      if maxDepth ≤ curDepth then none
      else some (TreeNode.node e ((parentsOf db e.id).filterMap
        (fun p => buildTree db p maxDepth (curDepth + 1)))) := by
  unfold buildTree
  rcases hg : maxDepth - curDepth with _ | g
  · rw [if_pos (by omega)]
    rfl
  · rw [if_neg (by omega)]
    have hg' : maxDepth - (curDepth + 1) = g := by omega
    show some (TreeNode.node e ((parentsOf db e.id).filterMap (buildTreeG db g))) = _
    rw [hg']

/-- Well-formedness of a database state: ids recorded anywhere are ids of
already-created entries, hence below the id counter. -/
def WFDB (db : DB) : Prop :=
  (∀ e ∈ db.entries, e.id < db.nextEntryId) ∧
  (∀ pr ∈ db.relationship, pr.1 < db.nextEntryId ∧ pr.2 < db.nextEntryId) ∧
  (∀ row ∈ db.stepCache, row.outputId < db.nextEntryId)


/-! ## Frame and characterization lemmas -/

theorem attachTag_shape (db : DB) (i : Nat) (n : String) :
    ∃ t d g, attachTag db i n = { db with tags := t, dataTag := d, nextTagId := g } := by
  unfold attachTag
  cases lookupTag db n
  · exact ⟨_, _, _, rfl⟩
  · exact ⟨_, _, _, rfl⟩

theorem addAutoTags_shape (names : List String) : ∀ (db : DB) (i : Nat),
    ∃ t d g, addAutoTags db i names = { db with tags := t, dataTag := d, nextTagId := g } := by
  induction names with
  | nil => intro db i; exact ⟨db.tags, db.dataTag, db.nextTagId, rfl⟩
  | cons n ns ih =>
    intro db i
    obtain ⟨t1, d1, g1, h1⟩ := attachTag_shape db i n
    obtain ⟨t2, d2, g2, h2⟩ := ih (attachTag db i n) i
    refine ⟨t2, d2, g2, ?_⟩
    show addAutoTags (attachTag db i n) i ns = _
    rw [h2, h1]

theorem getEntry_id {db : DB} {i : Nat} {e : DataEntry} (h : getEntry db i = some e) :
    e.id = i := by
  have := List.find?_some h
  simpa using this

theorem getEntry_mem {db : DB} {i : Nat} {e : DataEntry} (h : getEntry db i = some e) :
    e ∈ db.entries := List.mem_of_find?_eq_some h

theorem getEntry_congr {db1 db2 : DB} (h : db1.entries = db2.entries) (i : Nat) :
    getEntry db1 i = getEntry db2 i := by
  unfold getEntry
  rw [h]

theorem getEntry_append {db : DB} {l : List DataEntry} {i : Nat} {e : DataEntry}
    (h : getEntry db i = some e) :
    getEntry { db with entries := db.entries ++ l } i = some e := by
  unfold getEntry at h ⊢
  rw [List.find?_append, h]
  rfl

theorem latestMTime_congr {db1 db2 : DB} (h : db1.mtimeCache = db2.mtimeCache) (f : String) :
    latestMTime db1 f = latestMTime db2 f := by
  unfold latestMTime
  rw [h]

theorem lookupStepCache_congr {db1 db2 : DB} (h : db1.stepCache = db2.stepCache) (s : String) :
    lookupStepCache db1 s = lookupStepCache db2 s := by
  unfold lookupStepCache
  rw [h]

theorem getLast?_filter_concat_pos {α : Type} (p : α → Bool) (l : List α) (x : α)
    (hx : p x = true) : ((l ++ [x]).filter p).getLast? = some x := by
  rw [List.filter_append]
  have h1 : [x].filter p = [x] := by simp [hx]
  rw [h1, List.getLast?_concat]

theorem getLast?_filter_concat_neg {α : Type} (p : α → Bool) (l : List α) (x : α)
    (hx : p x = false) : ((l ++ [x]).filter p).getLast? = (l.filter p).getLast? := by
  rw [List.filter_append]
  have h1 : [x].filter p = [] := by simp [hx]
  rw [h1, List.append_nil]

theorem latestMTime_concat_self (db : DB) (row : MTimeRow) :
    latestMTime { db with mtimeCache := db.mtimeCache ++ [row] } row.filePath = some row := by
  unfold latestMTime
  exact getLast?_filter_concat_pos _ _ _ (by simp)

theorem latestMTime_concat_other {row : MTimeRow} {f : String} (db : DB)
    (h : row.filePath ≠ f) :
    latestMTime { db with mtimeCache := db.mtimeCache ++ [row] } f = latestMTime db f := by
  unfold latestMTime
  exact getLast?_filter_concat_neg _ _ _ (by simp [h])

theorem lookupStepCache_concat_self (db : DB) (row : StepCacheRow) :
    lookupStepCache { db with stepCache := db.stepCache ++ [row] } row.inputHash = some row := by
  unfold lookupStepCache
  exact getLast?_filter_concat_pos _ _ _ (by simp)

/-- The file either has no mtime-cache row or its stored mtime changed. -/
def MTimeChanged (db : DB) (fsMtime : String → Int) (f : String) : Prop :=
  ∀ row, latestMTime db f = some row → row.lastMtime ≠ fsMtime f

/-- The file's latest mtime-cache row matches the current mtime and its
recorded artifact still exists. -/
def MTimeUnchanged (db : DB) (fsMtime : String → Int) (f : String) : Prop :=
  ∃ row e, latestMTime db f = some row ∧ row.lastMtime = fsMtime f ∧
    getEntry db row.dataEntryId = some e

/-- Artifact id an unchanged file resolves to. -/
def prevId (db : DB) (f : String) : Nat :=
  match latestMTime db f with
  | some row => row.dataEntryId
  | none => 0

/-- Artifact row created by re-ingesting file `f`. -/
def freshEntry (cfg : InitialLoadConfig) (db : DB) (f : String) : DataEntry :=
  { id := db.nextEntryId, type := cfg.dataType, path := "raw/" ++ natStr db.nextUid,
    originalPath := some f, description := "Auto-loaded from: " ++ f }

theorem freshLoad_eq (cfg : InitialLoadConfig) (db : DB) (f : String) (current : Int) :
    freshLoad cfg db f current =
      ({ db with entries := db.entries ++ [freshEntry cfg db f],
                 mtimeCache := db.mtimeCache ++
                   [{ filePath := f, dataEntryId := db.nextEntryId, lastMtime := current }],
                 nextEntryId := db.nextEntryId + 1,
                 nextUid := db.nextUid + 1,
                 rawStores := db.rawStores + 1 }, db.nextEntryId) := rfl

theorem loadOneFile_cached {db : DB} {f : String} {fsMtime : String → Int}
    {row : MTimeRow} {e : DataEntry} (cfg : InitialLoadConfig)
    (specTags : String → List String)
    (h1 : latestMTime db f = some row) (h2 : row.lastMtime = fsMtime f)
    (h3 : getEntry db row.dataEntryId = some e) :
    ∃ t d g, loadOneFile cfg fsMtime specTags db f =
      Except.ok ({ db with tags := t, dataTag := d, nextTagId := g }, e.id) := by
  obtain ⟨t1, d1, g1, ha⟩ := addAutoTags_shape (specTags f ++ [f]) db e.id
  obtain ⟨t2, d2, g2, hb⟩ :=
    addAutoTags_shape cfg.tags { db with tags := t1, dataTag := d1, nextTagId := g1 } e.id
  refine ⟨t2, d2, g2, ?_⟩
  have hstep : loadOneFile cfg fsMtime specTags db f =
      Except.ok (addAutoTags (addAutoTags db e.id (specTags f ++ [f])) e.id cfg.tags, e.id) := by
    unfold loadOneFile
    simp only [h1]
    rw [if_pos h2]
    simp only [h3]
  rw [hstep, ha, hb]

theorem addAutoTags_twice_shape (db : DB) (i : Nat) (l1 l2 : List String) :
    ∃ t d g, addAutoTags (addAutoTags db i l1) i l2 =
      { db with tags := t, dataTag := d, nextTagId := g } := by
  obtain ⟨t1, d1, g1, h1⟩ := addAutoTags_shape l1 db i
  obtain ⟨t2, d2, g2, h2⟩ := addAutoTags_shape l2 (addAutoTags db i l1) i
  exact ⟨t2, d2, g2, by rw [h2, h1]⟩

theorem loadOneFile_fresh {db : DB} {f : String} {fsMtime : String → Int}
    (cfg : InitialLoadConfig) (specTags : String → List String)
    (h : MTimeChanged db fsMtime f) :
    ∃ t d g, loadOneFile cfg fsMtime specTags db f =
      Except.ok ({ db with
        entries := db.entries ++ [freshEntry cfg db f],
        mtimeCache := db.mtimeCache ++
          [{ filePath := f, dataEntryId := db.nextEntryId, lastMtime := fsMtime f }],
        nextEntryId := db.nextEntryId + 1,
        nextUid := db.nextUid + 1,
        rawStores := db.rawStores + 1,
        tags := t, dataTag := d, nextTagId := g }, db.nextEntryId) := by
  obtain ⟨t, d, g, hshape⟩ := addAutoTags_twice_shape
    { db with entries := db.entries ++ [freshEntry cfg db f],
              mtimeCache := db.mtimeCache ++
                [{ filePath := f, dataEntryId := db.nextEntryId, lastMtime := fsMtime f }],
              nextEntryId := db.nextEntryId + 1, nextUid := db.nextUid + 1,
              rawStores := db.rawStores + 1 }
    db.nextEntryId (specTags f ++ [f]) cfg.tags
  refine ⟨t, d, g, ?_⟩
  unfold loadOneFile
  rcases hrow : latestMTime db f with _ | row
  · simp only [hrow]
    show Except.ok (addAutoTags (addAutoTags
        { db with entries := db.entries ++ [freshEntry cfg db f],
                  mtimeCache := db.mtimeCache ++
                    [{ filePath := f, dataEntryId := db.nextEntryId, lastMtime := fsMtime f }],
                  nextEntryId := db.nextEntryId + 1, nextUid := db.nextUid + 1,
                  rawStores := db.rawStores + 1 }
        db.nextEntryId (specTags f ++ [f])) db.nextEntryId cfg.tags, db.nextEntryId) = _
    rw [hshape]
  · simp only [hrow]
    rw [if_neg (h row hrow)]
    show Except.ok (addAutoTags (addAutoTags
        { db with entries := db.entries ++ [freshEntry cfg db f],
                  mtimeCache := db.mtimeCache ++
                    [{ filePath := f, dataEntryId := db.nextEntryId, lastMtime := fsMtime f }],
                  nextEntryId := db.nextEntryId + 1, nextUid := db.nextUid + 1,
                  rawStores := db.rawStores + 1 }
        db.nextEntryId (specTags f ++ [f])) db.nextEntryId cfg.tags, db.nextEntryId) = _
    rw [hshape]

theorem loadDescriptor_ok {db : DB} {i : Nat} {e : DataEntry} (he : getEntry db i = some e) :
    loadDescriptor db i =
      Except.ok ({ path := e.path, originalPath := e.originalPath,
                   tags := tagNamesOf db e.id, id := e.id }, e) := by
  unfold loadDescriptor
  rw [he]

theorem loadDescriptors_ok {db : DB} : ∀ {ids : List Nat},
    (∀ i ∈ ids, ∃ e, getEntry db i = some e) →
    ∃ ds es, loadDescriptors db ids = Except.ok (ds, es) ∧
      es.map DataEntry.id = ids ∧ ds.length = ids.length := by
  intro ids
  induction ids with
  | nil => intro _; exact ⟨[], [], rfl, rfl, rfl⟩
  | cons i rest ih =>
    intro h
    obtain ⟨e, he⟩ := h i (List.mem_cons_self i rest)
    obtain ⟨ds, es, hld, hids, hlen⟩ := ih (fun j hj => h j (List.mem_cons_of_mem _ hj))
    refine ⟨{ path := e.path, originalPath := e.originalPath,
              tags := tagNamesOf db e.id, id := e.id } :: ds, e :: es, ?_, ?_, ?_⟩
    · show loadDescriptors db (i :: rest) = _
      unfold loadDescriptors
      rw [loadDescriptor_ok he, hld]
    · rw [List.map_cons, hids, getEntry_id he]
    · simp [hlen]

/-- The processor function never returns a value of the rejected shape for
these parameters (so `_execute_processor` accepts its return value). -/
def NoBadRet (proc : ProcDesc) (params : List (String × JVal)) : Prop :=
  ∀ arg path, proc.func arg path params ≠ TagRet.rbad

/-- Conditions under which a fresh `DataProcessor.run` goes through: the
processor exists, the arity matches, every input id denotes an existing
entry, the input ids are duplicate-free (the composite primary key on
`data_relationship` accepts the edges), and the processor's return shape is
legal. -/
def FreshRunOK (reg : Registry) (db : DB) (pname : String) (ids : List Nat)
    (params : List (String × JVal)) : Prop :=
  ∃ proc, getProcessor reg pname = Except.ok proc ∧
    (proc.inputType = "single" ∧ ids.length = 1 ∨ proc.inputType = "multi") ∧
    (∀ i ∈ ids, ∃ e, getEntry db i = some e) ∧ ids.Nodup ∧ NoBadRet proc params

theorem executeProcessor_ok (proc : ProcDesc) (params : List (String × JVal))
    (db : DB) (arg : InputArg) (hnb : NoBadRet proc params) :
    ∃ rtags, executeProcessor db proc arg params =
      Except.ok ({ db with nextUid := db.nextUid + 1, procCalls := db.procCalls + 1 },
        "processed/" ++ natStr db.nextUid ++ proc.outputExt, rtags) := by
  unfold executeProcessor
  rcases hf : proc.func arg ("processed/" ++ natStr db.nextUid ++ proc.outputExt) params
    with _ | s | l | _
  · exact ⟨[], by simp only [hf]⟩
  · exact ⟨[s], by simp only [hf]⟩
  · exact ⟨l, by simp only [hf]⟩
  · exact absurd hf (hnb _ _)

theorem finishRun_ok {parents : List DataEntry} (db : DB) (pname idsRepr : String)
    (params : List (String × JVal)) (outPath : String) (rtags : List String)
    (hnd : (parents.map DataEntry.id).Nodup) :
    ∃ t d g e, finishRun db pname idsRepr params outPath parents rtags =
      Except.ok ({ db with
          entries := db.entries ++ [e],
          nextEntryId := db.nextEntryId + 1,
          relationship := db.relationship ++
            (parents.map DataEntry.id).map (fun p => (p, db.nextEntryId)),
          tags := t, dataTag := d, nextTagId := g }, e) ∧
      e.id = db.nextEntryId ∧ e.type = "processed" ∧ e.path = outPath := by
  obtain ⟨t, d, g, hshape⟩ := addAutoTags_shape rtags
    { db with
      entries := db.entries ++ [runEntry db pname idsRepr params outPath],
      nextEntryId := db.nextEntryId + 1,
      relationship := db.relationship ++
        (parents.map DataEntry.id).map
          (fun p => (p, (runEntry db pname idsRepr params outPath).id)) }
    (runEntry db pname idsRepr params outPath).id
  refine ⟨t, d, g, runEntry db pname idsRepr params outPath, ?_, rfl, rfl, rfl⟩
  unfold finishRun
  rw [if_pos hnd, hshape]
  rfl

theorem runProcessor_spec {reg : Registry} {db : DB} {pname : String} {ids : List Nat}
    {params : List (String × JVal)} (h : FreshRunOK reg db pname ids params) :
    ∃ db' e, runProcessor reg db pname ids params = Except.ok (db', e) ∧
      e.id = db.nextEntryId ∧ e.type = "processed" ∧
      db'.entries = db.entries ++ [e] ∧
      db'.relationship = db.relationship ++ ids.map (fun p => (p, db.nextEntryId)) ∧
      db'.stepCache = db.stepCache ∧
      db'.mtimeCache = db.mtimeCache ∧
      db'.nextEntryId = db.nextEntryId + 1 ∧
      db'.procCalls = db.procCalls + 1 ∧
      db'.rawStores = db.rawStores ∧
      db'.exportsMeta = db.exportsMeta := by
  obtain ⟨proc, hproc, harity, hent, hnd, hnb⟩ := h
  rcases harity with ⟨hsingle, hlen⟩ | hmulti
  · match ids, hlen with
    | [i], _ =>
      obtain ⟨e, he⟩ := hent i (List.mem_cons_self i [])
      obtain ⟨rtags, hexec⟩ := executeProcessor_ok proc params db
        (InputArg.one { path := e.path, originalPath := e.originalPath,
                        tags := tagNamesOf db e.id, id := e.id }) hnb
      have hnd1 : (([e].map DataEntry.id).Nodup) := by simp
      obtain ⟨t, d, g, e', hfin, hid, htype, hpath⟩ :=
        finishRun_ok { db with nextUid := db.nextUid + 1, procCalls := db.procCalls + 1 }
          pname (natStr i) params ("processed/" ++ natStr db.nextUid ++ proc.outputExt)
          rtags hnd1
      have heid : [e].map DataEntry.id = [i] := by simp [getEntry_id he]
      rw [heid] at hfin
      have hrun : runProcessor reg db pname [i] params =
          finishRun { db with nextUid := db.nextUid + 1, procCalls := db.procCalls + 1 }
            pname (natStr i) params ("processed/" ++ natStr db.nextUid ++ proc.outputExt)
            [e] rtags := by
        unfold runProcessor
        simp only [hproc, if_pos hsingle, loadDescriptor_ok he, hexec]
      rw [hfin] at hrun
      exact ⟨_, e', hrun, hid, htype, rfl, rfl, rfl, rfl, rfl, rfl, rfl, rfl⟩
  · obtain ⟨ds, es, hld, hids, hlen⟩ := loadDescriptors_ok hent
    obtain ⟨rtags, hexec⟩ := executeProcessor_ok proc params db
      (InputArg.many ds) hnb
    have hnd1 : ((es.map DataEntry.id).Nodup) := by rw [hids]; exact hnd
    obtain ⟨t, d, g, e', hfin, hid, htype, hpath⟩ :=
      finishRun_ok { db with nextUid := db.nextUid + 1, procCalls := db.procCalls + 1 }
        pname (listRepr ids) params ("processed/" ++ natStr db.nextUid ++ proc.outputExt)
        rtags hnd1
    rw [hids] at hfin
    have hns : proc.inputType = "single" → False := by
      intro hs
      rw [hs] at hmulti
      exact absurd hmulti (by decide)
    have hrun : runProcessor reg db pname ids params =
        finishRun { db with nextUid := db.nextUid + 1, procCalls := db.procCalls + 1 }
          pname (listRepr ids) params ("processed/" ++ natStr db.nextUid ++ proc.outputExt)
          es rtags := by
      unfold runProcessor
      simp only [hproc, if_neg hns, if_pos hmulti, hld, hexec]
    rw [hfin] at hrun
    exact ⟨_, e', hrun, hid, htype, rfl, rfl, rfl, rfl, rfl, rfl, rfl, rfl⟩

theorem updCtx_same (ctx : Ctx) (k : String) (v : List Nat) : updCtx ctx k v k = v := by
  unfold updCtx
  rw [if_pos rfl]

theorem updCtx_other (ctx : Ctx) (k : String) (v : List Nat) {k' : String} (h : k' ≠ k) :
    updCtx ctx k v k' = ctx k' := by
  unfold updCtx
  rw [if_neg h]

theorem resolveInputs_updCtx {v : String} {inputs : StepInputs} (ctx : Ctx) (xs : List Nat)
    (h : v ∉ inputVars inputs) :
    resolveInputs (updCtx ctx v xs) inputs = resolveInputs ctx inputs := by
  cases inputs with
  | one s =>
    show updCtx ctx v xs s = ctx s
    exact updCtx_other ctx v xs (fun hsv => h (by simp [inputVars, hsv]))
  | many l =>
    show ((l.map (updCtx ctx v xs)).flatten) = ((l.map ctx).flatten)
    have : l.map (updCtx ctx v xs) = l.map ctx := by
      apply List.map_congr_left
      intro s hs
      exact updCtx_other ctx v xs (fun hsv => h (by simp [inputVars]; exact hsv ▸ hs))
    rw [this]

/-- Cache key of a step in a given context. -/
def stepHashOf (proc : ProcDesc) (ctx : Ctx) (step : PipelineStep) : String :=
  generateStepHash step.processor proc.fhash (resolveInputs ctx step.inputs) step.params

theorem lookupStepCache_mem {db : DB} {h : String} {row : StepCacheRow}
    (hl : lookupStepCache db h = some row) : row ∈ db.stepCache := by
  unfold lookupStepCache at hl
  exact List.mem_of_mem_filter (List.mem_of_getLast?_eq_some hl)

theorem lookupStepCache_row_hash {db : DB} {h : String} {row : StepCacheRow}
    (hl : lookupStepCache db h = some row) : row.inputHash = h := by
  unfold lookupStepCache at hl
  have := List.mem_filter.mp (List.mem_of_getLast?_eq_some hl)
  simpa using this.2

/-- Cache-hit branch of `execStep` (no export configured): the cached output
id is published and nothing else happens. -/
theorem execStep_cache_hit {reg : Registry} {db : DB} {ctx : Ctx} {step : PipelineStep}
    {proc : ProcDesc} {row : StepCacheRow}
    (hproc : getProcessor reg step.processor = Except.ok proc)
    (hrow : lookupStepCache db (stepHashOf proc ctx step) = some row)
    (hforce : step.forceRerun = false) (hcache : step.cache = true)
    (hexp : step.exportName = none) :
    execStep reg db ctx step = Except.ok (db, updCtx ctx step.outputVar [row.outputId]) := by
  unfold stepHashOf at hrow
  unfold execStep
  simp only [hproc, hrow, hforce, hcache, hexp]
  rfl

theorem execStep_eq_fresh {reg : Registry} {db : DB} {ctx : Ctx} {step : PipelineStep}
    {proc : ProcDesc}
    (hproc : getProcessor reg step.processor = Except.ok proc)
    (hflag : (!step.forceRerun && step.cache) = false) :
    execStep reg db ctx step =
      execFresh reg db ctx step (resolveInputs ctx step.inputs) (stepHashOf proc ctx step) := by
  unfold execStep stepHashOf
  simp only [hproc]
  rcases hlk : lookupStepCache db (generateStepHash step.processor proc.fhash
      (resolveInputs ctx step.inputs) step.params) with _ | row
  · rfl
  · simp only [hflag]
    rfl

theorem execStep_eq_fresh_none {reg : Registry} {db : DB} {ctx : Ctx} {step : PipelineStep}
    {proc : ProcDesc}
    (hproc : getProcessor reg step.processor = Except.ok proc)
    (hnone : lookupStepCache db (stepHashOf proc ctx step) = none) :
    execStep reg db ctx step =
      execFresh reg db ctx step (resolveInputs ctx step.inputs) (stepHashOf proc ctx step) := by
  unfold stepHashOf at hnone
  unfold execStep stepHashOf
  simp only [hproc, hnone]

theorem logStep_shape (db : DB) (step : PipelineStep) (i : Nat) :
    ∃ l, logStep db step i = { db with entries := l } ∧
      l.map DataEntry.id = db.entries.map DataEntry.id := by
  refine ⟨_, rfl, ?_⟩
  rw [List.map_map]
  apply List.map_congr_left
  intro a _
  show (if a.id = i then _ else a).id = a.id
  split <;> rfl

theorem executeProcessor_ok_inv {db db1 : DB} {proc : ProcDesc} {arg : InputArg}
    {params : List (String × JVal)} {op : String} {rtags : List String}
    (h : executeProcessor db proc arg params = Except.ok (db1, op, rtags)) :
    db1 = { db with nextUid := db.nextUid + 1, procCalls := db.procCalls + 1 } := by
  unfold executeProcessor at h
  split at h
  · injection h with hp
    injection hp with h1 _
    exact h1.symm
  · injection h with hp
    injection hp with h1 _
    exact h1.symm
  · injection h with hp
    injection hp with h1 _
    exact h1.symm
  · exact Except.noConfusion h

theorem finishRun_ok_inv {db0 dbr : DB} {pname idsRepr outPath : String}
    {params : List (String × JVal)} {parents : List DataEntry} {rtags : List String}
    {e : DataEntry}
    (h : finishRun db0 pname idsRepr params outPath parents rtags = Except.ok (dbr, e)) :
    e.id = db0.nextEntryId ∧ dbr.nextEntryId = db0.nextEntryId + 1 := by
  unfold finishRun at h
  split at h
  · injection h with hp
    injection hp with h1 h2
    constructor
    · rw [← h2]
      rfl
    · rw [← h1]
      obtain ⟨t, d, g, hshape⟩ := addAutoTags_shape rtags
        { db0 with
          entries := db0.entries ++ [runEntry db0 pname idsRepr params outPath],
          nextEntryId := db0.nextEntryId + 1,
          relationship := db0.relationship ++
            (parents.map DataEntry.id).map
              (fun p => (p, (runEntry db0 pname idsRepr params outPath).id)) }
        (runEntry db0 pname idsRepr params outPath).id
      rw [hshape]
  · exact Except.noConfusion h

theorem runProcessor_ok_ids {reg : Registry} {db dbr : DB} {pname : String}
    {ids : List Nat} {params : List (String × JVal)} {e : DataEntry}
    (h : runProcessor reg db pname ids params = Except.ok (dbr, e)) :
    e.id = db.nextEntryId ∧ dbr.nextEntryId = db.nextEntryId + 1 := by
  unfold runProcessor at h
  rcases hgp : getProcessor reg pname with er | proc
  · simp only [hgp] at h
    exact Except.noConfusion h
  · simp only [hgp] at h
    split at h
    · match ids, h with
      | [], h => exact Except.noConfusion h
      | [i], h =>
        rcases hld : loadDescriptor db i with er | pr
        · simp only [hld] at h
          exact Except.noConfusion h
        · obtain ⟨d, data⟩ := pr
          simp only [hld] at h
          rcases hex : executeProcessor db proc (InputArg.one d) params
            with er | ⟨db1, op, rtags⟩
          · simp only [hex] at h
            exact Except.noConfusion h
          · simp only [hex] at h
            have hinv := finishRun_ok_inv h
            rw [executeProcessor_ok_inv hex] at hinv
            exact hinv
      | i :: j :: rest, h => exact Except.noConfusion h
    · split at h
      · rcases hld : loadDescriptors db ids with er | ⟨ds, es⟩
        · simp only [hld] at h
          exact Except.noConfusion h
        · simp only [hld] at h
          rcases hex : executeProcessor db proc (InputArg.many ds) params
            with er | ⟨db1, op, rtags⟩
          · simp only [hex] at h
            exact Except.noConfusion h
          · simp only [hex] at h
            have hinv := finishRun_ok_inv h
            rw [executeProcessor_ok_inv hex] at hinv
            exact hinv
      · exact Except.noConfusion h

theorem execFresh_ok_inv {reg : Registry} {db db1 : DB} {ctx ctx1 : Ctx}
    {step : PipelineStep} {resolved : List Nat} {sh : String}
    (h : execFresh reg db ctx step resolved sh = Except.ok (db1, ctx1)) :
    ∃ dbr e, runProcessor reg db step.processor resolved step.params = Except.ok (dbr, e) ∧
      ctx1 = updCtx ctx step.outputVar [e.id] ∧
      db1.nextEntryId = dbr.nextEntryId ∧
      db1.stepCache = (if step.cache
        then dbr.stepCache ++ [{ inputHash := sh, outputId := e.id }]
        else dbr.stepCache) := by
  unfold execFresh at h
  rcases hrp : runProcessor reg db step.processor resolved step.params with er | ⟨dbr, e⟩
  · rw [hrp] at h
    exact Except.noConfusion h
  · rw [hrp] at h
    injection h with hp
    injection hp with h1 h2
    obtain ⟨l, hls, _⟩ := logStep_shape
      (match step.exportName with
       | none => (if step.cache
          then { dbr with stepCache := dbr.stepCache ++
                   [{ inputHash := sh, outputId := e.id }] }
          else dbr)
       | some nm => createExportFile (if step.cache
          then { dbr with stepCache := dbr.stepCache ++
                   [{ inputHash := sh, outputId := e.id }] }
          else dbr) nm e.id) step e.id
    refine ⟨dbr, e, rfl, h2.symm, ?_, ?_⟩
    · rw [← h1, hls]
      cases hexp : step.exportName <;> simp [hexp, createExportFile] <;> split <;> rfl
    · rw [← h1, hls]
      cases hexp : step.exportName <;> simp [hexp, createExportFile] <;> split <;> rfl

theorem stepHashOf_updCtx {proc : ProcDesc} {ctx : Ctx} {step : PipelineStep}
    {v : String} {xs : List Nat} (h : v ∉ inputVars step.inputs) :
    stepHashOf proc (updCtx ctx v xs) step = stepHashOf proc ctx step := by
  unfold stepHashOf
  rw [resolveInputs_updCtx ctx xs h]

theorem execFresh_post {reg : Registry} {db db1 : DB} {ctx ctx1 : Ctx}
    {step : PipelineStep} {resolved : List Nat} {sh : String}
    (hcache : step.cache = true)
    (h : execFresh reg db ctx step resolved sh = Except.ok (db1, ctx1)) :
    ∃ i, ctx1 = updCtx ctx step.outputVar [i] ∧
      lookupStepCache db1 sh = some { inputHash := sh, outputId := i } ∧
      i < db1.nextEntryId := by
  obtain ⟨dbr, e, hrp, hctx, hnid, hsc⟩ := execFresh_ok_inv h
  have hids := runProcessor_ok_ids hrp
  rw [hcache] at hsc
  simp only [if_pos] at hsc
  refine ⟨e.id, hctx, ?_, ?_⟩
  · have hcg : lookupStepCache db1 sh =
        lookupStepCache { dbr with stepCache := dbr.stepCache ++
          [{ inputHash := sh, outputId := e.id }] } sh :=
      lookupStepCache_congr (by rw [hsc]) sh
    rw [hcg]
    exact lookupStepCache_concat_self dbr { inputHash := sh, outputId := e.id }
  · rw [hids.1, hnid, hids.2]
    omega

/-- Distributing a conditional stepCache update over the record. -/
theorem ite_record_stepCache (c : Prop) [Decidable c] (db : DB) (x : List StepCacheRow) :
    (if c then { db with stepCache := x } else db) =
      { db with stepCache := if c then x else db.stepCache } := by
  split <;> rfl

/-- Post-state of any successful step with `cache=true` and no export: the
output variable is bound to a one-element list, the bound id is recorded as
the most recent cache row for this step's key, and (on a well-formed start
state) the bound id is below the id counter. -/
theorem execStep_ok_post {reg : Registry} {db db1 : DB} {ctx ctx1 : Ctx}
    {step : PipelineStep} {proc : ProcDesc}
    (hproc : getProcessor reg step.processor = Except.ok proc)
    (hcache : step.cache = true) (hexp : step.exportName = none)
    (h : execStep reg db ctx step = Except.ok (db1, ctx1)) :
    ∃ i row, ctx1 = updCtx ctx step.outputVar [i] ∧
      lookupStepCache db1 (stepHashOf proc ctx step) = some row ∧ row.outputId = i ∧
      (WFDB db → i < db1.nextEntryId) := by
  unfold execStep at h
  simp only [hproc] at h
  rcases hlk : lookupStepCache db (generateStepHash step.processor proc.fhash
      (resolveInputs ctx step.inputs) step.params) with _ | row
  · simp only [hlk] at h
    obtain ⟨i, hctx, hlook, hlt⟩ := execFresh_post hcache h
    exact ⟨i, ⟨generateStepHash step.processor proc.fhash (resolveInputs ctx step.inputs)
      step.params, i⟩, hctx, hlook, rfl, fun _ => hlt⟩
  · simp only [hlk] at h
    split at h
    · simp only [hexp] at h
      injection h with hp
      injection hp with h1 h2
      refine ⟨row.outputId, row, h2.symm, ?_, rfl, ?_⟩
      · rw [← h1]
        show lookupStepCache db (stepHashOf proc ctx step) = some row
        unfold stepHashOf
        exact hlk
      · intro hwf
        rw [← h1]
        exact hwf.2.2 row (lookupStepCache_mem hlk)
    · obtain ⟨i, hctx, hlook, hlt⟩ := execFresh_post hcache h
      exact ⟨i, ⟨generateStepHash step.processor proc.fhash (resolveInputs ctx step.inputs)
        step.params, i⟩, hctx, hlook, rfl, fun _ => hlt⟩

theorem execFresh_spec {reg : Registry} {db : DB} {ctx : Ctx} {step : PipelineStep}
    {resolved : List Nat} (sh : String)
    (hfr : FreshRunOK reg db step.processor resolved step.params)
    (hexp : step.exportName = none) :
    ∃ db', execFresh reg db ctx step resolved sh =
        Except.ok (db', updCtx ctx step.outputVar [db.nextEntryId]) ∧
      db'.procCalls = db.procCalls + 1 ∧
      db'.nextEntryId = db.nextEntryId + 1 ∧
      db'.stepCache = (if step.cache
        then db.stepCache ++ [{ inputHash := sh, outputId := db.nextEntryId }]
        else db.stepCache) ∧
      db'.mtimeCache = db.mtimeCache ∧
      db'.entries.map DataEntry.id = db.entries.map DataEntry.id ++ [db.nextEntryId] ∧
      db'.relationship = db.relationship ++ resolved.map (fun p => (p, db.nextEntryId)) ∧
      db'.rawStores = db.rawStores := by
  obtain ⟨dbr, e, hrp, hid, htype, hent, hrel, hsc, hmc, hnid, hpc, hrs, hem⟩ :=
    runProcessor_spec hfr
  unfold execFresh
  simp only [hrp, hexp]
  rw [ite_record_stepCache]
  obtain ⟨l, hls, hlid⟩ := logStep_shape
    { dbr with stepCache := if step.cache = true
        then dbr.stepCache ++ [{ inputHash := sh, outputId := e.id }]
        else dbr.stepCache }
    step e.id
  refine ⟨{ dbr with
      stepCache := if step.cache = true
        then dbr.stepCache ++ [{ inputHash := sh, outputId := db.nextEntryId }]
        else dbr.stepCache,
      entries := l }, ?_, ?_, ?_, ?_, ?_, ?_, ?_, ?_⟩
  · rw [hls, hid]
  · show dbr.procCalls = _
    rw [hpc]
  · show dbr.nextEntryId = _
    rw [hnid]
  · show (if step.cache = true then _ else _) = _
    rw [hsc]
  · show dbr.mtimeCache = _
    rw [hmc]
  · show l.map DataEntry.id = _
    rw [hlid, hent]
    simp [hid]
  · show dbr.relationship = _
    rw [hrel]
  · show dbr.rawStores = _
    rw [hrs]

/-- Any successful step rebinds exactly the output variable. -/
theorem execStep_ok_ctx {reg : Registry} {db db1 : DB} {ctx ctx1 : Ctx}
    {step : PipelineStep}
    (h : execStep reg db ctx step = Except.ok (db1, ctx1)) :
    ∃ i, ctx1 = updCtx ctx step.outputVar [i] := by
  unfold execStep at h
  rcases hgp : getProcessor reg step.processor with er | proc
  · simp only [hgp] at h
    exact Except.noConfusion h
  · simp only [hgp] at h
    rcases hlk : lookupStepCache db (generateStepHash step.processor proc.fhash
        (resolveInputs ctx step.inputs) step.params) with _ | row
    · simp only [hlk] at h
      obtain ⟨dbr, e, _, hctx, _, _⟩ := execFresh_ok_inv h
      exact ⟨e.id, hctx⟩
    · simp only [hlk] at h
      split at h
      · rcases hexp : step.exportName with _ | nm
        · simp only [hexp] at h
          injection h with hp
          injection hp with _ h2
          exact ⟨row.outputId, h2.symm⟩
        · simp only [hexp] at h
          rcases hge : getEntry db row.outputId with _ | e2
          · simp only [hge] at h
            exact Except.noConfusion h
          · simp only [hge] at h
            injection h with hp
            injection hp with _ h2
            exact ⟨row.outputId, h2.symm⟩
      · obtain ⟨dbr, e, _, hctx, _, _⟩ := execFresh_ok_inv h
        exact ⟨e.id, hctx⟩

/-- Inversion of the per-file ingestion body: the state either gains only
tag data (cache hit) or additionally the fresh artifact, its mtime row and
one raw copy. -/
theorem loadOneFile_ok_inv {cfg : InitialLoadConfig} {fsMtime : String → Int}
    {specTags : String → List String} {db dbt : DB} {f : String} {j : Nat}
    (h : loadOneFile cfg fsMtime specTags db f = Except.ok (dbt, j)) :
    ∃ t d g, dbt = { db with tags := t, dataTag := d, nextTagId := g } ∨
      dbt = { db with
        entries := db.entries ++ [freshEntry cfg db f],
        mtimeCache := db.mtimeCache ++
          [{ filePath := f, dataEntryId := db.nextEntryId, lastMtime := fsMtime f }],
        nextEntryId := db.nextEntryId + 1, nextUid := db.nextUid + 1,
        rawStores := db.rawStores + 1, tags := t, dataTag := d, nextTagId := g } := by
  have hfreshCase :
      ((Except.ok (addAutoTags (addAutoTags
        { db with
          entries := db.entries ++ [freshEntry cfg db f],
          mtimeCache := db.mtimeCache ++
            [{ filePath := f, dataEntryId := db.nextEntryId, lastMtime := fsMtime f }],
          nextEntryId := db.nextEntryId + 1, nextUid := db.nextUid + 1,
          rawStores := db.rawStores + 1 }
        db.nextEntryId (specTags f ++ [f])) db.nextEntryId cfg.tags, db.nextEntryId)
        : Except PErr (DB × Nat))
        = Except.ok (dbt, j)) →
      ∃ t d g, dbt = { db with tags := t, dataTag := d, nextTagId := g } ∨
        dbt = { db with
          entries := db.entries ++ [freshEntry cfg db f],
          mtimeCache := db.mtimeCache ++
            [{ filePath := f, dataEntryId := db.nextEntryId, lastMtime := fsMtime f }],
          nextEntryId := db.nextEntryId + 1, nextUid := db.nextUid + 1,
          rawStores := db.rawStores + 1, tags := t, dataTag := d, nextTagId := g } := by
    intro hh
    injection hh with hp
    injection hp with h1 _
    obtain ⟨t, d, g, hshape⟩ := addAutoTags_twice_shape
      { db with
        entries := db.entries ++ [freshEntry cfg db f],
        mtimeCache := db.mtimeCache ++
          [{ filePath := f, dataEntryId := db.nextEntryId, lastMtime := fsMtime f }],
        nextEntryId := db.nextEntryId + 1, nextUid := db.nextUid + 1,
        rawStores := db.rawStores + 1 }
      db.nextEntryId (specTags f ++ [f]) cfg.tags
    refine ⟨t, d, g, Or.inr ?_⟩
    rw [← h1, hshape]
  unfold loadOneFile at h
  rcases hrow : latestMTime db f with _ | row
  · simp only [hrow] at h
    exact hfreshCase h
  · simp only [hrow] at h
    split at h
    · rcases hge : getEntry db row.dataEntryId with _ | e
      · simp only [hge] at h
        exact Except.noConfusion h
      · simp only [hge] at h
        injection h with hp
        injection hp with h1 _
        obtain ⟨t, d, g, hshape⟩ := addAutoTags_twice_shape db e.id
          (specTags f ++ [f]) cfg.tags
        refine ⟨t, d, g, Or.inl ?_⟩
        rw [← h1, hshape]
    · exact hfreshCase h

/-- After a run, file `f` is recorded: its latest mtime row carries the
returned artifact id and the current mtime, and the artifact exists. -/
def LoadedAt (fsMtime : String → Int) (db : DB) (f : String) (i : Nat) : Prop :=
  ∃ row e, latestMTime db f = some row ∧ row.dataEntryId = i ∧
    row.lastMtime = fsMtime f ∧ getEntry db i = some e

theorem MTimeUnchanged_congr {db1 db2 : DB} {fsMtime : String → Int} {f : String}
    (hm : db2.mtimeCache = db1.mtimeCache) (he : db2.entries = db1.entries)
    (h : MTimeUnchanged db1 fsMtime f) : MTimeUnchanged db2 fsMtime f := by
  obtain ⟨row, e, h1, h2, h3⟩ := h
  exact ⟨row, e, by rw [latestMTime_congr hm]; exact h1, h2,
    by rw [getEntry_congr he]; exact h3⟩

theorem MTimeChanged_congr {db1 db2 : DB} {fsMtime : String → Int} {f : String}
    (hm : db2.mtimeCache = db1.mtimeCache)
    (h : MTimeChanged db1 fsMtime f) : MTimeChanged db2 fsMtime f := by
  intro row hrow
  exact h row (by rw [← latestMTime_congr hm]; exact hrow)

theorem prevId_congr {db1 db2 : DB} (hm : db1.mtimeCache = db2.mtimeCache) (f : String) :
    prevId db1 f = prevId db2 f := by
  unfold prevId
  rw [latestMTime_congr hm]

theorem freshEntry_congr {db1 db2 : DB} (cfg : InitialLoadConfig) (f : String)
    (h1 : db1.nextEntryId = db2.nextEntryId) (h2 : db1.nextUid = db2.nextUid) :
    freshEntry cfg db1 f = freshEntry cfg db2 f := by
  unfold freshEntry
  rw [h1, h2]

theorem getEntry_concat_isSome (db : DB) (e0 : DataEntry) (i : Nat) (hi : e0.id = i) :
    ∃ e, getEntry { db with entries := db.entries ++ [e0] } i = some e := by
  unfold getEntry
  rw [List.find?_append]
  rcases hf : db.entries.find? (fun x => x.id == i) with _ | e
  · refine ⟨e0, ?_⟩
    rw [hf, List.find?_cons_of_pos _ (by simp [hi])]
    rfl
  · exact ⟨e, by rw [hf]; rfl⟩

theorem loadOneFile_LoadedAt {cfg : InitialLoadConfig} {fsMtime : String → Int}
    {specTags : String → List String} {db dbt : DB} {f : String} {i : Nat}
    (h : loadOneFile cfg fsMtime specTags db f = Except.ok (dbt, i)) :
    LoadedAt fsMtime dbt f i := by
  by_cases hch : MTimeChanged db fsMtime f
  · obtain ⟨t, d, g, hF⟩ := loadOneFile_fresh cfg specTags hch
    rw [h] at hF
    injection hF with hp
    injection hp with h1 h2
    subst h1
    subst h2
    obtain ⟨e, hge⟩ := getEntry_concat_isSome db (freshEntry cfg db f) db.nextEntryId rfl
    refine ⟨{ filePath := f, dataEntryId := db.nextEntryId, lastMtime := fsMtime f },
      e, ?_, rfl, rfl, ?_⟩
    · exact (latestMTime_congr rfl f).trans
        (latestMTime_concat_self db
          { filePath := f, dataEntryId := db.nextEntryId, lastMtime := fsMtime f })
    · exact (getEntry_congr rfl db.nextEntryId).trans hge
  · unfold MTimeChanged at hch
    push_neg at hch
    obtain ⟨row, hrow, hmt⟩ := hch
    unfold loadOneFile at h
    simp only [hrow] at h
    rw [if_pos hmt] at h
    rcases hge : getEntry db row.dataEntryId with _ | e
    · simp only [hge] at h
      exact Except.noConfusion h
    · simp only [hge] at h
      injection h with hp
      injection hp with h1 h2
      obtain ⟨t, d, g, hshape⟩ := addAutoTags_twice_shape db e.id
        (specTags f ++ [f]) cfg.tags
      rw [hshape] at h1
      subst h1
      refine ⟨row, e, ?_, ?_, hmt, ?_⟩
      · exact (latestMTime_congr rfl f).trans hrow
      · rw [← getEntry_id hge]
        exact h2
      · have hgi : getEntry db i = some e := by
          rw [← h2, getEntry_id hge]
          exact hge
        exact (getEntry_congr rfl i).trans hgi

theorem loadOneFile_preserves_LoadedAt {cfg : InitialLoadConfig} {fsMtime : String → Int}
    {specTags : String → List String} {db dbt : DB} {f f' : String} {i j : Nat}
    (h : loadOneFile cfg fsMtime specTags db f' = Except.ok (dbt, j)) (hne : f ≠ f')
    (hl : LoadedAt fsMtime db f i) : LoadedAt fsMtime dbt f i := by
  obtain ⟨row, e, h1, h2, h3, h4⟩ := hl
  obtain ⟨t, d, g, hcase⟩ := loadOneFile_ok_inv h
  rcases hcase with hdb | hdb <;> subst hdb
  · exact ⟨row, e, (latestMTime_congr rfl f).trans h1, h2, h3,
      (getEntry_congr rfl i).trans h4⟩
  · refine ⟨row, e, ?_, h2, h3, ?_⟩
    · refine (latestMTime_congr rfl f).trans ?_
      exact (latestMTime_concat_other db (Ne.symm hne)).trans h1
    · exact (getEntry_congr rfl i).trans (getEntry_append h4)

theorem loadFilesGo_preserves_LoadedAt {cfg : InitialLoadConfig} {fsMtime : String → Int}
    {specTags : String → List String} {f : String} {i : Nat} :
    ∀ {files : List String} {db db' : DB} {ids : List Nat},
      loadFilesGo cfg fsMtime specTags db files = Except.ok (db', ids) →
      f ∉ files → LoadedAt fsMtime db f i → LoadedAt fsMtime db' f i := by
  intro files
  induction files with
  | nil =>
    intro db db' ids h _ hl
    injection h with hp
    injection hp with h1 _
    rw [← h1]
    exact hl
  | cons f' files ih =>
    intro db db' ids h hnm hl
    unfold loadFilesGo at h
    rcases hlf : loadOneFile cfg fsMtime specTags db f' with er | ⟨dbt, j⟩
    · simp only [hlf] at h
      exact Except.noConfusion h
    · simp only [hlf] at h
      rcases hgo : loadFilesGo cfg fsMtime specTags dbt files with er | ⟨db2, ids2⟩
      · simp only [hgo] at h
        exact Except.noConfusion h
      · simp only [hgo] at h
        injection h with hp
        injection hp with h1 _
        rw [← h1]
        exact ih hgo (fun hx => hnm (List.mem_cons_of_mem _ hx))
          (loadOneFile_preserves_LoadedAt hlf
            (fun hx => hnm (hx ▸ List.mem_cons_self f' files)) hl)

theorem loadFilesGo_post {cfg : InitialLoadConfig} {fsMtime : String → Int}
    {specTags : String → List String} :
    ∀ {files : List String} {db db' : DB} {ids : List Nat},
      files.Nodup → loadFilesGo cfg fsMtime specTags db files = Except.ok (db', ids) →
      List.Forall₂ (LoadedAt fsMtime db') files ids := by
  intro files
  induction files with
  | nil =>
    intro db db' ids _ h
    injection h with hp
    injection hp with _ h2
    rw [← h2]
    exact List.Forall₂.nil
  | cons f files ih =>
    intro db db' ids hnd h
    unfold loadFilesGo at h
    rcases hlf : loadOneFile cfg fsMtime specTags db f with er | ⟨dbt, j⟩
    · simp only [hlf] at h
      exact Except.noConfusion h
    · simp only [hlf] at h
      rcases hgo : loadFilesGo cfg fsMtime specTags dbt files with er | ⟨db2, ids2⟩
      · simp only [hgo] at h
        exact Except.noConfusion h
      · simp only [hgo] at h
        injection h with hp
        injection hp with h1 h2
        rw [← h1, ← h2]
        refine List.Forall₂.cons ?_ (ih (List.Nodup.of_cons hnd) hgo)
        exact loadFilesGo_preserves_LoadedAt hgo
          (fun hx => (List.nodup_cons.mp hnd).1 hx) (loadOneFile_LoadedAt hlf)

theorem LoadedAt_prevId {fsMtime : String → Int} {db : DB} {f : String} {i : Nat}
    (h : LoadedAt fsMtime db f i) : prevId db f = i := by
  obtain ⟨row, e, h1, h2, _, _⟩ := h
  unfold prevId
  rw [h1]
  exact h2

theorem LoadedAt_MTimeUnchanged {fsMtime fsMtime2 : String → Int} {db : DB} {f : String}
    {i : Nat} (h : LoadedAt fsMtime db f i) (heq : fsMtime2 f = fsMtime f) :
    MTimeUnchanged db fsMtime2 f := by
  obtain ⟨row, e, h1, h2, h3, h4⟩ := h
  refine ⟨row, e, h1, by rw [h3, heq], ?_⟩
  rw [h2]
  exact h4

theorem LoadedAt_MTimeChanged {fsMtime fsMtime2 : String → Int} {db : DB} {f : String}
    {i : Nat} (h : LoadedAt fsMtime db f i) (hne : fsMtime2 f ≠ fsMtime f) :
    MTimeChanged db fsMtime2 f := by
  obtain ⟨row, e, h1, h2, h3, h4⟩ := h
  intro row' hrow' heq
  rw [h1] at hrow'
  injection hrow' with hr
  rw [← hr] at heq
  rw [h3] at heq
  exact hne heq.symm

theorem forall₂_mem_left {α β : Type} {R : α → β → Prop} :
    ∀ {l1 : List α} {l2 : List β}, List.Forall₂ R l1 l2 → ∀ a ∈ l1, ∃ b, R a b := by
  intro l1 l2 h
  induction h with
  | nil =>
    intro a ha
    exact absurd ha (List.not_mem_nil a)
  | cons h1 _ ih =>
    intro a ha
    rcases List.mem_cons.mp ha with rfl | ha'
    · exact ⟨_, h1⟩
    · exact ih a ha'

theorem forall₂_LoadedAt_prevId {fsMtime : String → Int} {db : DB} :
    ∀ {files : List String} {ids : List Nat},
      List.Forall₂ (LoadedAt fsMtime db) files ids → files.map (prevId db) = ids := by
  intro files ids h
  induction h with
  | nil => rfl
  | cons h1 _ ih => rw [List.map_cons, ih, LoadedAt_prevId h1]

/-- When every listed file's mtime is unchanged, the ingestion pass only
touches the tag tables: it returns the previously recorded artifact ids and
creates no artifact row, no mtime-cache row and no raw copy. -/
theorem loadFilesGo_unchanged (cfg : InitialLoadConfig) {fsMtime : String → Int}
    (specTags : String → List String) :
    ∀ {files : List String} {db : DB},
      (∀ f ∈ files, MTimeUnchanged db fsMtime f) →
      ∃ db', loadFilesGo cfg fsMtime specTags db files =
          Except.ok (db', files.map (prevId db)) ∧
        db'.entries = db.entries ∧ db'.mtimeCache = db.mtimeCache ∧
        db'.relationship = db.relationship ∧ db'.stepCache = db.stepCache ∧
        db'.nextEntryId = db.nextEntryId ∧ db'.nextUid = db.nextUid ∧
        db'.rawStores = db.rawStores ∧ db'.procCalls = db.procCalls := by
  intro files
  induction files with
  | nil =>
    intro db _
    exact ⟨db, rfl, rfl, rfl, rfl, rfl, rfl, rfl, rfl, rfl⟩
  | cons f files ih =>
    intro db hu
    obtain ⟨row, e, h1, h2, h3⟩ := hu f (List.mem_cons_self f files)
    obtain ⟨t, d, g, hone⟩ := loadOneFile_cached cfg specTags h1 h2 h3
    have hrest : ∀ f' ∈ files,
        MTimeUnchanged { db with tags := t, dataTag := d, nextTagId := g } fsMtime f' :=
      fun f' hf' => MTimeUnchanged_congr rfl rfl (hu f' (List.mem_cons_of_mem f hf'))
    obtain ⟨db2, hgo, he2, hm2, hr2, hs2, hn2, hu2, hw2, hp2⟩ := ih hrest
    have hid : e.id = prevId db f := by
      unfold prevId
      rw [h1]
      exact getEntry_id h3
    have hmap : files.map (prevId { db with tags := t, dataTag := d, nextTagId := g })
        = files.map (prevId db) :=
      List.map_congr_left (fun a _ => prevId_congr rfl a)
    refine ⟨db2, ?_, he2, hm2, hr2, hs2, hn2, hu2, hw2, hp2⟩
    unfold loadFilesGo
    simp only [hone, hgo, List.map_cons, hmap, hid]

theorem loadFilesGo_append_ok (cfg : InitialLoadConfig) {fsMtime : String → Int}
    (specTags : String → List String) :
    ∀ {l1 : List String} {db db1 db2 : DB} {ids1 ids2 : List Nat} {l2 : List String},
      loadFilesGo cfg fsMtime specTags db l1 = Except.ok (db1, ids1) →
      loadFilesGo cfg fsMtime specTags db1 l2 = Except.ok (db2, ids2) →
      loadFilesGo cfg fsMtime specTags db (l1 ++ l2) = Except.ok (db2, ids1 ++ ids2) := by
  intro l1
  induction l1 with
  | nil =>
    intro db db1 db2 ids1 ids2 l2 h1 h2
    injection h1 with hp
    injection hp with ha hb
    rw [ha, ← hb]
    exact h2
  | cons f l1 ih =>
    intro db db1 db2 ids1 ids2 l2 h1 h2
    rw [List.cons_append]
    unfold loadFilesGo at h1 ⊢
    rcases hlf : loadOneFile cfg fsMtime specTags db f with er | ⟨dbt, j⟩
    · simp only [hlf] at h1
      exact Except.noConfusion h1
    · simp only [hlf] at h1 ⊢
      rcases hgo : loadFilesGo cfg fsMtime specTags dbt l1 with er | ⟨dbm, idsm⟩
      · simp only [hgo] at h1
        exact Except.noConfusion h1
      · simp only [hgo] at h1
        injection h1 with hp
        injection hp with ha hb
        rw [← ha] at h2
        simp only [ih hgo h2]
        rw [← hb]
        rfl

theorem latestMTime_extend {db db' : DB} {r0 : MTimeRow} {g : String}
    (hmc : db'.mtimeCache = db.mtimeCache ++ [r0]) (hne : r0.filePath ≠ g) :
    latestMTime db' g = latestMTime db g :=
  (latestMTime_congr hmc g).trans (latestMTime_concat_other db hne)

theorem prevId_extend {db db' : DB} {r0 : MTimeRow} {g : String}
    (hmc : db'.mtimeCache = db.mtimeCache ++ [r0]) (hne : r0.filePath ≠ g) :
    prevId db' g = prevId db g := by
  unfold prevId
  rw [latestMTime_extend hmc hne]

theorem MTimeUnchanged_extend {db db' : DB} {fsMtime : String → Int} {g : String}
    {e0 : DataEntry} {r0 : MTimeRow}
    (hent : db'.entries = db.entries ++ [e0])
    (hmc : db'.mtimeCache = db.mtimeCache ++ [r0]) (hne : r0.filePath ≠ g)
    (h : MTimeUnchanged db fsMtime g) : MTimeUnchanged db' fsMtime g := by
  obtain ⟨row, e, h1, h2, h3⟩ := h
  exact ⟨row, e, (latestMTime_extend hmc hne).trans h1, h2,
    (getEntry_congr hent row.dataEntryId).trans (getEntry_append h3)⟩

/-- A changed file at the head of the list is freshly re-ingested (one new
artifact row, one raw copy, one new mtime-cache row) and every later
unchanged file's previously recorded id is returned. -/
theorem loadFilesGo_changed_head (cfg : InitialLoadConfig) {fsMtime : String → Int}
    (specTags : String → List String) {post : List String} {f0 : String} {db : DB}
    (hpost : ∀ g ∈ post, MTimeUnchanged db fsMtime g)
    (hch : MTimeChanged db fsMtime f0) (hf0 : f0 ∉ post) :
    ∃ db', loadFilesGo cfg fsMtime specTags db (f0 :: post) =
        Except.ok (db', db.nextEntryId :: post.map (prevId db)) ∧
      db'.entries = db.entries ++ [freshEntry cfg db f0] ∧
      db'.mtimeCache = db.mtimeCache ++
        [{ filePath := f0, dataEntryId := db.nextEntryId, lastMtime := fsMtime f0 }] ∧
      db'.nextEntryId = db.nextEntryId + 1 ∧
      db'.rawStores = db.rawStores + 1 ∧
      db'.relationship = db.relationship ∧
      db'.stepCache = db.stepCache := by
  obtain ⟨t, d, g, hfr⟩ := loadOneFile_fresh cfg specTags hch
  have hpost2 : ∀ g' ∈ post, MTimeUnchanged
      { db with entries := db.entries ++ [freshEntry cfg db f0],
                mtimeCache := db.mtimeCache ++
                  [{ filePath := f0, dataEntryId := db.nextEntryId, lastMtime := fsMtime f0 }],
                nextEntryId := db.nextEntryId + 1, nextUid := db.nextUid + 1,
                rawStores := db.rawStores + 1, tags := t, dataTag := d, nextTagId := g }
      fsMtime g' := by
    intro g' hg'
    refine MTimeUnchanged_extend rfl rfl ?_ (hpost g' hg')
    intro hx
    exact hf0 (by rw [show f0 = g' from hx]; exact hg')
  obtain ⟨dbf, hgopost, heP, hmP, hrP, hsP, hnP, _, hwP, _⟩ :=
    loadFilesGo_unchanged cfg specTags hpost2
  have hmapPost : post.map (prevId
      { db with entries := db.entries ++ [freshEntry cfg db f0],
                mtimeCache := db.mtimeCache ++
                  [{ filePath := f0, dataEntryId := db.nextEntryId, lastMtime := fsMtime f0 }],
                nextEntryId := db.nextEntryId + 1, nextUid := db.nextUid + 1,
                rawStores := db.rawStores + 1, tags := t, dataTag := d, nextTagId := g })
      = post.map (prevId db) := by
    refine List.map_congr_left ?_
    intro a ha
    refine prevId_extend rfl ?_
    intro hx
    exact hf0 (by rw [show f0 = a from hx]; exact ha)
  refine ⟨dbf, ?_, heP, hmP, hnP, hwP, hrP, hsP⟩
  unfold loadFilesGo
  simp only [hfr, hgopost, hmapPost]

/-- A single changed file in the matched list is re-ingested while every
other file's artifact id is returned unchanged. -/
theorem loadFilesGo_one_changed (cfg : InitialLoadConfig) {fsMtime : String → Int}
    (specTags : String → List String) {pre post : List String} {f0 : String} {db : DB}
    (hpre : ∀ g ∈ pre, MTimeUnchanged db fsMtime g)
    (hpost : ∀ g ∈ post, MTimeUnchanged db fsMtime g)
    (hch : MTimeChanged db fsMtime f0) (hf0 : f0 ∉ post) :
    ∃ db', loadFilesGo cfg fsMtime specTags db (pre ++ f0 :: post) =
        Except.ok (db', pre.map (prevId db) ++ db.nextEntryId :: post.map (prevId db)) ∧
      db'.entries = db.entries ++ [freshEntry cfg db f0] ∧
      db'.mtimeCache = db.mtimeCache ++
        [{ filePath := f0, dataEntryId := db.nextEntryId, lastMtime := fsMtime f0 }] ∧
      db'.nextEntryId = db.nextEntryId + 1 ∧
      db'.rawStores = db.rawStores + 1 ∧
      db'.relationship = db.relationship := by
  obtain ⟨dbm, hgopre, hePre, hmPre, hrPre, hsPre, hnPre, huPre, hwPre, hpPre⟩ :=
    loadFilesGo_unchanged cfg specTags hpre
  have hpost1 : ∀ g' ∈ post, MTimeUnchanged dbm fsMtime g' :=
    fun g' hg' => MTimeUnchanged_congr hmPre hePre (hpost g' hg')
  have hch1 : MTimeChanged dbm fsMtime f0 := MTimeChanged_congr hmPre hch
  obtain ⟨dbf, hgoch, he1, hm1, hn1, hw1, hr1, hs1⟩ :=
    loadFilesGo_changed_head cfg specTags hpost1 hch1 hf0
  have hfe : freshEntry cfg dbm f0 = freshEntry cfg db f0 :=
    freshEntry_congr cfg f0 hnPre huPre
  have hmapPost : post.map (prevId dbm) = post.map (prevId db) :=
    List.map_congr_left (fun a _ => prevId_congr hmPre a)
  have hallrun := loadFilesGo_append_ok cfg specTags hgopre hgoch
  refine ⟨dbf, ?_, ?_, ?_, ?_, ?_, ?_⟩
  · rw [hallrun, hnPre, hmapPost]
  · rw [he1, hePre, hfe]
  · rw [hm1, hmPre, hnPre]
  · rw [hn1, hnPre]
  · rw [hw1, hwPre]
  · rw [hr1, hrPre]

theorem loadFilesGo_relationship (cfg : InitialLoadConfig) {fsMtime : String → Int}
    (specTags : String → List String) :
    ∀ {files : List String} {db db' : DB} {ids : List Nat},
      loadFilesGo cfg fsMtime specTags db files = Except.ok (db', ids) →
      db'.relationship = db.relationship ∧ db'.stepCache = db.stepCache := by
  intro files
  induction files with
  | nil =>
    intro db db' ids h
    injection h with hp
    injection hp with ha _
    rw [← ha]
    exact ⟨rfl, rfl⟩
  | cons f files ih =>
    intro db db' ids h
    unfold loadFilesGo at h
    rcases hlf : loadOneFile cfg fsMtime specTags db f with er | ⟨dbt, j⟩
    · simp only [hlf] at h
      exact Except.noConfusion h
    · simp only [hlf] at h
      rcases hgo : loadFilesGo cfg fsMtime specTags dbt files with er | ⟨db2, ids2⟩
      · simp only [hgo] at h
        exact Except.noConfusion h
      · simp only [hgo] at h
        injection h with hp
        injection hp with ha _
        obtain ⟨hr, hs⟩ := ih hgo
        obtain ⟨t, d, g, hcase⟩ := loadOneFile_ok_inv hlf
        rw [← ha]
        rcases hcase with hdb | hdb <;> rw [hdb] at hr hs <;> exact ⟨hr, hs⟩

theorem getEntry_mono {db db' : DB} {l : List DataEntry} {i : Nat} {e : DataEntry}
    (hent : db'.entries = db.entries ++ l) (h : getEntry db i = some e) :
    getEntry db' i = some e := by
  unfold getEntry at h ⊢
  rw [hent, List.find?_append, h]
  rfl

theorem rel_filter_old {db : DB} (hwf : WFDB db) :
    db.relationship.filter (fun pr => pr.2 == db.nextEntryId) = [] := by
  rw [List.filter_eq_nil_iff]
  intro pr hpr
  have hlt := (hwf.2.1 pr hpr).2
  simp only [beq_iff_eq]
  omega

theorem rel_filter_new {db : DB} {ids : List Nat} (hwf : WFDB db) :
    (db.relationship ++ ids.map (fun p => (p, db.nextEntryId))).filter
      (fun pr => pr.2 == db.nextEntryId) = ids.map (fun p => (p, db.nextEntryId)) := by
  rw [List.filter_append, rel_filter_old hwf, List.nil_append]
  refine List.filter_eq_self.mpr ?_
  intro a ha
  obtain ⟨p, _, rfl⟩ := List.mem_map.mp ha
  simp

theorem exists_forall₂_getEntry {db : DB} :
    ∀ {ids : List Nat}, (∀ i ∈ ids, ∃ e, getEntry db i = some e) →
      ∃ pes, List.Forall₂ (fun i pe => getEntry db i = some pe) ids pes := by
  intro ids
  induction ids with
  | nil => exact fun _ => ⟨[], List.Forall₂.nil⟩
  | cons a l ih =>
    intro h
    obtain ⟨e, he⟩ := h a (List.mem_cons_self a l)
    obtain ⟨pes, hpes⟩ := ih (fun i hi => h i (List.mem_cons_of_mem a hi))
    exact ⟨e :: pes, List.Forall₂.cons he hpes⟩

theorem filterMap_getEntry_forall₂ {db db' : DB} {l : List DataEntry}
    (hent : db'.entries = db.entries ++ l) :
    ∀ {ids : List Nat} {pes : List DataEntry},
      List.Forall₂ (fun i pe => getEntry db i = some pe) ids pes →
      ids.filterMap (fun i => getEntry db' i) = pes := by
  intro ids pes h
  induction h with
  | nil => rfl
  | cons h1 h2 ih =>
    rename_i a l1 b l2
    simp only [List.filterMap_cons, getEntry_mono hent h1, ih]

/-- Parent rows of the freshly created artifact resolve to exactly the input
entries, in order. -/
theorem parentsOf_run {db db' : DB} {e : DataEntry} {ids : List Nat}
    {pes : List DataEntry} (hwf : WFDB db)
    (hent : db'.entries = db.entries ++ [e])
    (hrel : db'.relationship = db.relationship ++ ids.map (fun p => (p, db.nextEntryId)))
    (hid : e.id = db.nextEntryId)
    (hpes : List.Forall₂ (fun i pe => getEntry db i = some pe) ids pes) :
    parentsOf db' e.id = pes := by
  unfold parentsOf
  rw [hid, hrel, rel_filter_new hwf, List.filterMap_map]
  have hc : ((fun pr : Nat × Nat => getEntry db' pr.1) ∘ fun p => (p, db.nextEntryId))
      = fun i => getEntry db' i := rfl
  rw [hc]
  exact filterMap_getEntry_forall₂ hent hpes

theorem filterMap_gas0 (db : DB) (l : List DataEntry) :
    l.filterMap (buildTreeG db 0) = [] := by
  induction l with
  | nil => rfl
  | cons a l ih =>
    simp only [List.filterMap_cons, show buildTreeG db 0 a = none from rfl, ih]

theorem buildTreeG_one (db : DB) (p : DataEntry) :
    buildTreeG db 1 p = some (TreeNode.node p []) := by
  show some (TreeNode.node p ((parentsOf db p.id).filterMap (buildTreeG db 0))) = _
  rw [filterMap_gas0]

theorem filterMap_buildTreeG_one (db : DB) (l : List DataEntry) :
    l.filterMap (buildTreeG db 1) = l.map (fun p => TreeNode.node p []) := by
  induction l with
  | nil => rfl
  | cons a l ih =>
    simp only [List.filterMap_cons, List.map_cons, buildTreeG_one db a, ih]

/-- With depth bound 2 from depth 0, the tree is the root with one child node
per parent artifact. -/
theorem buildTree_depth1 (db : DB) (e : DataEntry) :
    buildTree db e 2 0 = some (TreeNode.node e
      ((parentsOf db e.id).map (fun p => TreeNode.node p []))) := by
  show some (TreeNode.node e ((parentsOf db e.id).filterMap (buildTreeG db 1))) = _
  rw [filterMap_buildTreeG_one]

theorem entries_exist_of_isSome {db : DB} {ids : List Nat}
    (h : ∀ i ∈ ids, (getEntry db i).isSome = true) :
    ∀ i ∈ ids, ∃ e, getEntry db i = some e :=
  fun i hi => Option.isSome_iff_exists.mp (h i hi)

theorem updCtx_overwrite (ctx : Ctx) (k : String) (v1 v2 : List Nat) :
    updCtx (updCtx ctx k v1) k v2 = updCtx ctx k v2 := by
  funext k'
  unfold updCtx
  by_cases h : k' = k <;> simp [h]

theorem lookupStepCache_none {db : DB} {h : String}
    (hm : ∀ r ∈ db.stepCache, r.inputHash ≠ h) : lookupStepCache db h = none := by
  unfold lookupStepCache
  have he : db.stepCache.filter (fun r => r.inputHash == h) = [] := by
    rw [List.filter_eq_nil_iff]
    intro r hr
    simp only [beq_iff_eq]
    exact hm r hr
  rw [he]
  rfl

theorem generateStepHash_perm (processor funcHash : String) {ids1 ids2 : List Nat}
    (params : List (String × JVal)) (h : List.Perm ids1 ids2) :
    generateStepHash processor funcHash ids1 params =
      generateStepHash processor funcHash ids2 params := by
  unfold generateStepHash
  rw [sortedIdsL_perm h]

theorem generateStepHash_proc_inj {p p' fh : String} {ids : List Nat}
    {ps : List (String × JVal)}
    (h : generateStepHash p fh ids ps = generateStepHash p' fh ids ps) : p = p' := by
  have h1 : joinSep ['|'] [p.data, fh.data, sortedIdsL ids, dumpsL ps]
      = joinSep ['|'] [p'.data, fh.data, sortedIdsL ids, dumpsL ps] :=
    congrArg String.data h
  exact string_data_inj
    (joinSep_middle_inj ['|'] [] [fh.data, sortedIdsL ids, dumpsL ps] p.data p'.data h1)

theorem generateStepHash_fhash_inj {p fh fh' : String} {ids : List Nat}
    {ps : List (String × JVal)}
    (h : generateStepHash p fh ids ps = generateStepHash p fh' ids ps) : fh = fh' := by
  have h1 : joinSep ['|'] [p.data, fh.data, sortedIdsL ids, dumpsL ps]
      = joinSep ['|'] [p.data, fh'.data, sortedIdsL ids, dumpsL ps] :=
    congrArg String.data h
  exact string_data_inj
    (joinSep_middle_inj ['|'] [p.data] [sortedIdsL ids, dumpsL ps] fh.data fh'.data h1)

theorem generateStepHash_ids_inj {p fh : String} {ids ids' : List Nat}
    {ps : List (String × JVal)}
    (h : generateStepHash p fh ids ps = generateStepHash p fh ids' ps) :
    List.Perm ids ids' := by
  have h1 : joinSep ['|'] [p.data, fh.data, sortedIdsL ids, dumpsL ps]
      = joinSep ['|'] [p.data, fh.data, sortedIdsL ids', dumpsL ps] :=
    congrArg String.data h
  exact sortedIdsL_inj
    (joinSep_middle_inj ['|'] [p.data, fh.data] [dumpsL ps] (sortedIdsL ids)
      (sortedIdsL ids') h1)

theorem generateStepHash_params_inj {p fh : String} {ids : List Nat}
    {ps ps' : List (String × JVal)}
    (h : generateStepHash p fh ids ps = generateStepHash p fh ids ps') :
    dumpsL ps = dumpsL ps' := by
  have h1 : joinSep ['|'] [p.data, fh.data, sortedIdsL ids, dumpsL ps]
      = joinSep ['|'] [p.data, fh.data, sortedIdsL ids, dumpsL ps'] :=
    congrArg String.data h
  exact joinSep_middle_inj ['|'] [p.data, fh.data, sortedIdsL ids] [] (dumpsL ps)
    (dumpsL ps') h1

/-! ## Concrete sample registry, stores and steps -/

def fxProcMulti : ProcDesc :=
  { inputType := "multi", outputExt := ".txt", fhash := "h1",
    func := fun _ _ _ => TagRet.rnone }

def fxProcSingle : ProcDesc :=
  { inputType := "single", outputExt := ".txt", fhash := "h2",
    func := fun _ _ _ => TagRet.rnone }

def fxProcDup : ProcDesc :=
  { inputType := "multi", outputExt := ".txt", fhash := "h3",
    func := fun _ _ _ => TagRet.rlist ["a", "a"] }

def fxReg : Registry :=
  [("merge", fxProcMulti), ("convert", fxProcSingle), ("dup", fxProcDup)]

def fxEntry : DataEntry :=
  { id := 1, type := "raw", path := "raw/0", originalPath := some "data/a.txt",
    description := "Auto-loaded from: data/a.txt" }

def fxEntry2 : DataEntry :=
  { id := 2, type := "raw", path := "raw/1", originalPath := some "data/b.txt",
    description := "Auto-loaded from: data/b.txt" }

def fxDb : DB :=
  { entries := [fxEntry], nextEntryId := 2, nextUid := 1, rawStores := 1,
    mtimeCache := [{ filePath := "data/a.txt", dataEntryId := 1, lastMtime := 10 }] }

def fxDb2 : DB :=
  { entries := [fxEntry, fxEntry2], nextEntryId := 3, nextUid := 2, rawStores := 2 }

def fxTagDb : DB := { entries := [fxEntry], nextEntryId := 2 }

def fxCtx : Ctx := updCtx (fun _ => []) "initial" [1]

def fxStep : PipelineStep :=
  { processor := "merge", inputs := StepInputs.one "initial", params := [],
    outputVar := "out" }

def fxStepBad : PipelineStep :=
  { processor := "nope", inputs := StepInputs.one "initial", params := [],
    outputVar := "out" }

/-- Result state of running `fxStep` once on `fxDb`. -/
def fxRes : DB × Ctx :=
  (execStep fxReg fxDb fxCtx fxStep).toOption.getD (fxDb, fxCtx)

def fxCfg : InitialLoadConfig := { dataType := "raw", tags := ["imported"] }

def fxMtime1 : String → Int := fun _ => 10

def fxMtime2 : String → Int := fun f => if f = "data/b.txt" then 20 else 10

def fxSpecTags : String → List String := fun _ => []

def fxFiles : List String := ["data/a.txt", "data/b.txt"]

/-- Result of the first ingestion run over `fxFiles` on an empty store. -/
def fxLoadRes : DB × List Nat :=
  (loadFilesGo fxCfg fxMtime1 fxSpecTags {} fxFiles).toOption.getD ({}, [])

def fxRow : StepCacheRow :=
  { inputHash := generateStepHash "merge" "h1" [1, 2] [], outputId := 5 }

def fxDb9 : DB := { stepCache := [fxRow] }

def fxCtx9 : Ctx := updCtx (fun _ => []) "initial" [2, 1]

instance (db : DB) : Decidable (WFDB db) := by
  unfold WFDB
  infer_instance

/-! ## The claims -/

/-- C1: when a step's cache key matches a stored `step_cache` row and the step
has `cache` on, `forceRerun` off and no export, executing it publishes the
cached row's output id and leaves the database completely unchanged (so no
processor invocation and no new `step_cache` row); re-executing an executed
step in its own result state publishes the same output id and again changes
nothing, while re-executing it with `forceRerun := true` invokes the processor
once more and publishes a fresh, different artifact id. -/
theorem C1_step_caching {reg : Registry} {db db1 : DB} {ctx ctx1 : Ctx}
    {step : PipelineStep} {proc : ProcDesc}
    (hproc : getProcessor reg step.processor = Except.ok proc)
    (hcache : step.cache = true) (hforce : step.forceRerun = false)
    (hexp : step.exportName = none)
    (hvout : step.outputVar ∉ inputVars step.inputs)
    (hwf : WFDB db)
    (h1 : execStep reg db ctx step = Except.ok (db1, ctx1))
    (hfr : FreshRunOK reg db1 step.processor (resolveInputs ctx1 step.inputs)
      step.params) :
    (∀ row, lookupStepCache db (stepHashOf proc ctx step) = some row →
      execStep reg db ctx step =
        Except.ok (db, updCtx ctx step.outputVar [row.outputId])) ∧
    ∃ i, ctx1 step.outputVar = [i] ∧
      execStep reg db1 ctx1 step = Except.ok (db1, ctx1) ∧
      ∃ db2, execStep reg db1 ctx1 { step with forceRerun := true } =
          Except.ok (db2, updCtx ctx1 step.outputVar [db1.nextEntryId]) ∧
        db2.procCalls = db1.procCalls + 1 ∧ db1.nextEntryId ≠ i := by
  obtain ⟨i, row, hctx, hlook, hrowi, hlt⟩ := execStep_ok_post hproc hcache hexp h1
  refine ⟨?_, i, ?_, ?_, ?_⟩
  · intro row' hrow'
    exact execStep_cache_hit hproc hrow' hforce hcache hexp
  · rw [hctx]
    exact updCtx_same ctx step.outputVar [i]
  · have hsh : stepHashOf proc ctx1 step = stepHashOf proc ctx step := by
      rw [hctx]
      exact stepHashOf_updCtx hvout
    have hlook1 : lookupStepCache db1 (stepHashOf proc ctx1 step) = some row := by
      rw [hsh]
      exact hlook
    have h2 := execStep_cache_hit hproc hlook1 hforce hcache hexp
    rw [h2, hrowi, hctx, updCtx_overwrite]
  · have hflag : (!({ step with forceRerun := true }).forceRerun
        && ({ step with forceRerun := true }).cache) = false := rfl
    have hproc' : getProcessor reg ({ step with forceRerun := true }).processor
        = Except.ok proc := hproc
    have hfr' : FreshRunOK reg db1 ({ step with forceRerun := true }).processor
        (resolveInputs ctx1 ({ step with forceRerun := true }).inputs)
        ({ step with forceRerun := true }).params := hfr
    have he : execStep reg db1 ctx1 { step with forceRerun := true } =
        execFresh reg db1 ctx1 { step with forceRerun := true }
          (resolveInputs ctx1 ({ step with forceRerun := true }).inputs)
          (stepHashOf proc ctx1 { step with forceRerun := true }) :=
      execStep_eq_fresh hproc' hflag
    obtain ⟨db2, hrun, hpc, _, _, _, _, _, _⟩ :=
      execFresh_spec (stepHashOf proc ctx1 { step with forceRerun := true }) hfr' hexp
    refine ⟨db2, he.trans hrun, hpc, ?_⟩
    have hlt' := hlt hwf
    omega

theorem C1_witness :
    WFDB fxDb ∧
    ((∀ row, lookupStepCache fxDb (stepHashOf fxProcMulti fxCtx fxStep) = some row →
        execStep fxReg fxDb fxCtx fxStep =
          Except.ok (fxDb, updCtx fxCtx fxStep.outputVar [row.outputId])) ∧
      ∃ i, fxRes.2 fxStep.outputVar = [i] ∧
        execStep fxReg fxRes.1 fxRes.2 fxStep = Except.ok (fxRes.1, fxRes.2) ∧
        ∃ db2, execStep fxReg fxRes.1 fxRes.2 { fxStep with forceRerun := true } =
            Except.ok (db2, updCtx fxRes.2 fxStep.outputVar [fxRes.1.nextEntryId]) ∧
          db2.procCalls = fxRes.1.procCalls + 1 ∧ fxRes.1.nextEntryId ≠ i) :=
  ⟨by decide,
    C1_step_caching rfl rfl rfl rfl (by decide) (by decide) rfl
      ⟨fxProcMulti, rfl, Or.inr rfl, entries_exist_of_isSome (by decide), by decide,
        fun _ _ h => TagRet.noConfusion h⟩⟩

/-- C2 counterexample: a multi-arity processor accepts the empty input id
list — `DataProcessor.run` has no emptiness check on the multi branch — and
the resulting artifact is `processed` (non-raw) yet has zero parent edges,
contradicting both the claimed rejection of empty lists and the claimed
invariant. -/
theorem C2_counterexample :
    ∃ db' e, runProcessor fxReg fxDb "merge" [] [] = Except.ok (db', e) ∧
      e.type = "processed" ∧ db'.relationship = [] :=
  ⟨_, _, rfl, rfl, rfl⟩

/-- C2 (amended): `DataProcessor.run` records exactly one parent edge per
resolved input id — the multi branch accepts any list, including the empty
one, so a `processed` artifact has as many parents as inputs it was given —
and ingestion adds no parent edges at all. -/
theorem C2_parent_edges {reg : Registry} {db : DB} {pname : String} {ids : List Nat}
    {params : List (String × JVal)} (hfr : FreshRunOK reg db pname ids params)
    {cfg : InitialLoadConfig} {fsMtime : String → Int} {specTags : String → List String}
    {db0 dbl : DB} {files : List String} {idsl : List Nat}
    (hl : loadFilesGo cfg fsMtime specTags db0 files = Except.ok (dbl, idsl)) :
    (∃ db' e, runProcessor reg db pname ids params = Except.ok (db', e) ∧
      e.type = "processed" ∧
      db'.relationship = db.relationship ++ ids.map (fun p => (p, e.id))) ∧
    dbl.relationship = db0.relationship := by
  obtain ⟨db', e, hrun, hid, htype, _, hrel, _⟩ := runProcessor_spec hfr
  exact ⟨⟨db', e, hrun, htype, by rw [hrel, hid]⟩,
    (loadFilesGo_relationship cfg specTags hl).1⟩

theorem C2_witness :
    (∃ db' e, runProcessor fxReg fxDb "merge" [1] [] = Except.ok (db', e) ∧
      e.type = "processed" ∧
      db'.relationship = fxDb.relationship ++ [1].map (fun p => (p, e.id))) ∧
    fxLoadRes.1.relationship = ({} : DB).relationship := by
  have hl : loadFilesGo fxCfg fxMtime1 fxSpecTags {} fxFiles
      = Except.ok (fxLoadRes.1, fxLoadRes.2) := rfl
  refine C2_parent_edges ?_ hl
  exact ⟨fxProcMulti, rfl, Or.inr rfl, entries_exist_of_isSome (by decide), by decide,
    fun _ _ h => TagRet.noConfusion h⟩

/-- C3 counterexample: attaching the tag name "a" twice to the same artifact
leaves a single Tag row but records the artifact-tag association twice — the
`entry.tags.append` in the source is unconditional, so the spec's set
semantics (no duplicate association) does not hold. -/
theorem C3_counterexample :
    (addAutoTags fxTagDb 1 ["a", "a"]).dataTag = [(1, 1), (1, 1)] ∧
    (addAutoTags fxTagDb 1 ["a", "a"]).tags = [{ id := 1, name := "a" }] :=
  ⟨rfl, rfl⟩

/-- C3 (amended): attaching a tag name that already has a Tag row creates no
second Tag row (the row is looked up by name first), but the artifact-tag
association is appended unconditionally, one more row per attachment, even
when the artifact already holds that name. -/
theorem C3_tag_attachment {db : DB} {i : Nat} {name : String} {t : TagRow}
    (h : lookupTag db name = some t) :
    (attachTag db i name).tags = db.tags ∧
    (attachTag db i name).dataTag = db.dataTag ++ [(i, t.id)] := by
  unfold attachTag
  rw [h]
  exact ⟨rfl, rfl⟩

theorem C3_witness :
    lookupTag (addAutoTags fxTagDb 1 ["a"]) "a" = some { id := 1, name := "a" } ∧
    ((attachTag (addAutoTags fxTagDb 1 ["a"]) 1 "a").tags
        = (addAutoTags fxTagDb 1 ["a"]).tags ∧
      (attachTag (addAutoTags fxTagDb 1 ["a"]) 1 "a").dataTag
        = (addAutoTags fxTagDb 1 ["a"]).dataTag ++ [(1, 1)]) := by
  have h : lookupTag (addAutoTags fxTagDb 1 ["a"]) "a"
      = some { id := 1, name := "a" } := rfl
  exact ⟨h, C3_tag_attachment h⟩

/-- C4: changing any single cache-key component — the processor name, the
implementation hash, the resolved input id multiset, or one parameter's
value — while every other component is held fixed, changes the cache key;
and when no stored `step_cache` row carries the step's key, the step runs
the fresh-execution path rather than a cache hit. -/
theorem C4_cache_key_sensitivity (p p' fh fh' : String) (ids ids' : List Nat)
    (ps : List (String × JVal)) (A B : List (String × JVal)) (k : String)
    (v v' : JVal) :
    (p ≠ p' → generateStepHash p fh ids ps ≠ generateStepHash p' fh ids ps) ∧
    (fh ≠ fh' → generateStepHash p fh ids ps ≠ generateStepHash p fh' ids ps) ∧
    (¬ List.Perm ids ids' →
      generateStepHash p fh ids ps ≠ generateStepHash p fh ids' ps) ∧
    (paramsSorted (A ++ (k, v) :: B) → v ≠ v' →
      generateStepHash p fh ids (A ++ (k, v) :: B) ≠
        generateStepHash p fh ids (A ++ (k, v') :: B)) ∧
    (∀ (reg : Registry) (db : DB) (ctx : Ctx) (step : PipelineStep) (proc : ProcDesc),
      getProcessor reg step.processor = Except.ok proc →
      (∀ r ∈ db.stepCache, r.inputHash ≠ stepHashOf proc ctx step) →
      execStep reg db ctx step =
        execFresh reg db ctx step (resolveInputs ctx step.inputs)
          (stepHashOf proc ctx step)) := by
  refine ⟨?_, ?_, ?_, ?_, ?_⟩
  · intro hne h
    exact hne (generateStepHash_proc_inj h)
  · intro hne h
    exact hne (generateStepHash_fhash_inj h)
  · intro hne h
    exact hne (generateStepHash_ids_inj h)
  · intro hs hne h
    exact dumpsL_value_change A B k v v' hs hne (generateStepHash_params_inj h)
  · intro reg db ctx step proc hproc hnone
    exact execStep_eq_fresh_none hproc (lookupStepCache_none hnone)

theorem C4_witness :
    generateStepHash "align" "h" [1, 2] [("k", JVal.jnum 1)] ≠
        generateStepHash "merge" "h" [1, 2] [("k", JVal.jnum 1)] ∧
    generateStepHash "align" "h" [1, 2] [("k", JVal.jnum 1)] ≠
        generateStepHash "align" "h2" [1, 2] [("k", JVal.jnum 1)] ∧
    generateStepHash "align" "h" [1, 2] [("k", JVal.jnum 1)] ≠
        generateStepHash "align" "h" [1, 2, 3] [("k", JVal.jnum 1)] ∧
    generateStepHash "align" "h" [1, 2] [("k", JVal.jnum 1)] ≠
        generateStepHash "align" "h" [1, 2] [("k", JVal.jnum 2)] ∧
    execStep fxReg fxDb fxCtx fxStep =
      execFresh fxReg fxDb fxCtx fxStep (resolveInputs fxCtx fxStep.inputs)
        (stepHashOf fxProcMulti fxCtx fxStep) := by
  obtain ⟨h1, h2, h3, h4, h5⟩ := C4_cache_key_sensitivity "align" "merge" "h" "h2"
    [1, 2] [1, 2, 3] [("k", JVal.jnum 1)] [] [] "k" (JVal.jnum 1) (JVal.jnum 2)
  exact ⟨h1 (by decide), h2 (by decide), h3 (by decide),
    h4 (List.sorted_singleton _) (by decide),
    h5 fxReg fxDb fxCtx fxStep fxProcMulti rfl (by decide)⟩

/-- C5: a successful `DataProcessor.run` records one parent edge per resolved
input id — the edge count equals the input list length — and the lineage tree
rooted at the new artifact with depth bound 2 has exactly the input artifacts
as its depth-1 children. -/
theorem C5_lineage {reg : Registry} {db : DB} {pname : String} {ids : List Nat}
    {params : List (String × JVal)} (hwf : WFDB db)
    (hfr : FreshRunOK reg db pname ids params) :
    ∃ db' e pes, runProcessor reg db pname ids params = Except.ok (db', e) ∧
      List.Forall₂ (fun i pe => getEntry db i = some pe) ids pes ∧
      (db'.relationship.filter (fun pr => pr.2 == e.id)).length = ids.length ∧
      parentsOf db' e.id = pes ∧
      buildTree db' e 2 0 = some (TreeNode.node e
        (pes.map (fun p => TreeNode.node p []))) := by
  obtain ⟨proc, hproc, harity, hent, hnd, hnb⟩ := hfr
  obtain ⟨pes, hpes⟩ := exists_forall₂_getEntry hent
  obtain ⟨db', e, hrun, hid, _, hentq, hrel, _⟩ :=
    runProcessor_spec ⟨proc, hproc, harity, hent, hnd, hnb⟩
  refine ⟨db', e, pes, hrun, hpes, ?_, ?_, ?_⟩
  · rw [hrel, hid, rel_filter_new hwf, List.length_map]
  · exact parentsOf_run hwf hentq hrel hid hpes
  · rw [buildTree_depth1, parentsOf_run hwf hentq hrel hid hpes]

theorem C5_witness :
    WFDB fxDb2 ∧
    ∃ db' e pes, runProcessor fxReg fxDb2 "merge" [1, 2] [] = Except.ok (db', e) ∧
      List.Forall₂ (fun i pe => getEntry fxDb2 i = some pe) [1, 2] pes ∧
      (db'.relationship.filter (fun pr => pr.2 == e.id)).length = [1, 2].length ∧
      parentsOf db' e.id = pes ∧
      buildTree db' e 2 0 = some (TreeNode.node e
        (pes.map (fun p => TreeNode.node p []))) := by
  refine ⟨by decide, C5_lineage (by decide) ?_⟩
  exact ⟨fxProcMulti, rfl, Or.inr rfl, entries_exist_of_isSome (by decide), by decide,
    fun _ _ h => TagRet.noConfusion h⟩

/-- C6: after an ingestion run over a duplicate-free matched file list,
(1) re-running with every mtime unchanged returns the identical artifact id
list and creates no artifact row, no mtime-cache row and no raw copy, and
(2) re-running after exactly one file's mtime changed re-ingests exactly that
file — one new raw artifact row, one raw copy, one fresh mtime-cache row —
while every other position of the returned id list is unchanged. -/
theorem C6_incremental_ingestion {cfg : InitialLoadConfig} {fsMtime : String → Int}
    {specTags : String → List String} {db0 db1 : DB} {files : List String}
    {ids : List Nat} (hnd : files.Nodup)
    (h1 : loadInitialFiles cfg fsMtime specTags db0 files = Except.ok (db1, ids)) :
    (∃ db2, loadInitialFiles cfg fsMtime specTags db1 files = Except.ok (db2, ids) ∧
      db2.entries = db1.entries ∧ db2.mtimeCache = db1.mtimeCache ∧
      db2.rawStores = db1.rawStores ∧ db2.nextEntryId = db1.nextEntryId) ∧
    (∀ pre f0 post (fsMtime2 : String → Int), files = pre ++ f0 :: post →
      (∀ g ∈ files, g ≠ f0 → fsMtime2 g = fsMtime g) →
      fsMtime2 f0 ≠ fsMtime f0 →
      ids = pre.map (prevId db1) ++ prevId db1 f0 :: post.map (prevId db1) ∧
      ∃ db2, loadInitialFiles cfg fsMtime2 specTags db1 files =
          Except.ok (db2, pre.map (prevId db1) ++
            db1.nextEntryId :: post.map (prevId db1)) ∧
        db2.entries = db1.entries ++ [freshEntry cfg db1 f0] ∧
        db2.mtimeCache = db1.mtimeCache ++
          [{ filePath := f0, dataEntryId := db1.nextEntryId,
             lastMtime := fsMtime2 f0 }] ∧
        db2.rawStores = db1.rawStores + 1) := by
  have hkey : files.isEmpty = false ∧
      loadFilesGo cfg fsMtime specTags db0 files = Except.ok (db1, ids) := by
    unfold loadInitialFiles at h1
    rcases hemp : files.isEmpty with _ | _
    · rw [hemp] at h1
      exact ⟨rfl, h1⟩
    · rw [hemp] at h1
      exact Except.noConfusion h1
  obtain ⟨hemp, hgo⟩ := hkey
  have hskip : ∀ (fm : String → Int) (dbx : DB),
      loadInitialFiles cfg fm specTags dbx files = loadFilesGo cfg fm specTags dbx files := by
    intro fm dbx
    unfold loadInitialFiles
    rw [hemp, if_neg Bool.false_ne_true]
  have hfa := loadFilesGo_post hnd hgo
  have hids : files.map (prevId db1) = ids := forall₂_LoadedAt_prevId hfa
  have hunch : ∀ f ∈ files, MTimeUnchanged db1 fsMtime f := by
    intro f hf
    obtain ⟨i, hla⟩ := forall₂_mem_left hfa f hf
    exact LoadedAt_MTimeUnchanged hla rfl
  obtain ⟨db2, hgo2, he2, hm2, _, _, hn2, _, hw2, _⟩ :=
    loadFilesGo_unchanged cfg specTags hunch
  refine ⟨⟨db2, ?_, he2, hm2, hw2, hn2⟩, ?_⟩
  · rw [hskip, hgo2, hids]
  · intro pre f0 post fsMtime2 hdec heqg hnef
    subst hdec
    have hf0files : f0 ∈ pre ++ f0 :: post :=
      List.mem_append_right _ (List.mem_cons_self f0 post)
    have hf0post : f0 ∉ post := by
      have h2 := (List.nodup_append.mp hnd).2.1
      exact (List.nodup_cons.mp h2).1
    have hchg : MTimeChanged db1 fsMtime2 f0 := by
      obtain ⟨i, hla⟩ := forall₂_mem_left hfa f0 hf0files
      exact LoadedAt_MTimeChanged hla hnef
    have hpreU : ∀ g ∈ pre, MTimeUnchanged db1 fsMtime2 g := by
      intro g hg
      obtain ⟨i, hla⟩ := forall₂_mem_left hfa g (List.mem_append_left _ hg)
      refine LoadedAt_MTimeUnchanged hla (heqg g (List.mem_append_left _ hg) ?_)
      intro hgf0
      subst hgf0
      exact (List.nodup_append.mp hnd).2.2 hg (List.mem_cons_self g post)
    have hpostU : ∀ g ∈ post, MTimeUnchanged db1 fsMtime2 g := by
      intro g hg
      have hgmem : g ∈ pre ++ f0 :: post :=
        List.mem_append_right _ (List.mem_cons_of_mem f0 hg)
      obtain ⟨i, hla⟩ := forall₂_mem_left hfa g hgmem
      refine LoadedAt_MTimeUnchanged hla (heqg g hgmem ?_)
      intro hgf0
      subst hgf0
      exact hf0post hg
    obtain ⟨db3, hrun2, hent2, hmc2, _, hrs2, _⟩ :=
      loadFilesGo_one_changed cfg specTags hpreU hpostU hchg hf0post
    refine ⟨?_, db3, ?_, hent2, hmc2, hrs2⟩
    · rw [← hids, List.map_append, List.map_cons]
    · rw [hskip, hrun2]

theorem C6_witness :
    fxFiles.Nodup ∧
    (∃ db2, loadInitialFiles fxCfg fxMtime1 fxSpecTags fxLoadRes.1 fxFiles =
        Except.ok (db2, fxLoadRes.2) ∧
      db2.entries = fxLoadRes.1.entries ∧ db2.mtimeCache = fxLoadRes.1.mtimeCache ∧
      db2.rawStores = fxLoadRes.1.rawStores ∧
      db2.nextEntryId = fxLoadRes.1.nextEntryId) ∧
    (fxLoadRes.2 = ["data/a.txt"].map (prevId fxLoadRes.1) ++
        prevId fxLoadRes.1 "data/b.txt" :: ([] : List String).map (prevId fxLoadRes.1) ∧
      ∃ db2, loadInitialFiles fxCfg fxMtime2 fxSpecTags fxLoadRes.1 fxFiles =
          Except.ok (db2, ["data/a.txt"].map (prevId fxLoadRes.1) ++
            fxLoadRes.1.nextEntryId :: ([] : List String).map (prevId fxLoadRes.1)) ∧
        db2.entries = fxLoadRes.1.entries ++ [freshEntry fxCfg fxLoadRes.1 "data/b.txt"] ∧
        db2.mtimeCache = fxLoadRes.1.mtimeCache ++
          [{ filePath := "data/b.txt", dataEntryId := fxLoadRes.1.nextEntryId,
             lastMtime := fxMtime2 "data/b.txt" }] ∧
        db2.rawStores = fxLoadRes.1.rawStores + 1) := by
  have h1 : loadInitialFiles fxCfg fxMtime1 fxSpecTags {} fxFiles
      = Except.ok (fxLoadRes.1, fxLoadRes.2) := rfl
  refine ⟨by decide, (C6_incremental_ingestion (by decide) h1).1, ?_⟩
  exact (C6_incremental_ingestion (by decide) h1).2 ["data/a.txt"] "data/b.txt" []
    fxMtime2 rfl (by decide) (by decide)

/-- C7: a single-arity processor fails with the empty-input `ValueError` on
zero ids and with the too-many `ValueError` on two or more ids, and proceeds
to execute on exactly one id. -/
theorem C7_single_arity {reg : Registry} {db : DB} {pname : String}
    {params : List (String × JVal)} {proc : ProcDesc}
    (hproc : getProcessor reg pname = Except.ok proc)
    (hsingle : proc.inputType = "single") :
    runProcessor reg db pname [] params = Except.error PErr.arityEmptySingle ∧
    (∀ i j rest, runProcessor reg db pname (i :: j :: rest) params =
      Except.error PErr.arityManySingle) ∧
    (∀ i, (∀ n ∈ [i], ∃ e, getEntry db n = some e) → NoBadRet proc params →
      ∃ db' e, runProcessor reg db pname [i] params = Except.ok (db', e)) := by
  refine ⟨?_, ?_, ?_⟩
  · unfold runProcessor
    simp only [hproc, if_pos hsingle]
  · intro i j rest
    unfold runProcessor
    simp only [hproc, if_pos hsingle]
  · intro i hex hnb
    have hok : FreshRunOK reg db pname [i] params :=
      ⟨proc, hproc, Or.inl ⟨hsingle, rfl⟩, hex, List.nodup_singleton i, hnb⟩
    obtain ⟨db', e, hrun, _⟩ := runProcessor_spec hok
    exact ⟨db', e, hrun⟩

theorem C7_witness :
    getProcessor fxReg "convert" = Except.ok fxProcSingle ∧
    (runProcessor fxReg fxDb "convert" [] [] = Except.error PErr.arityEmptySingle ∧
      (∀ i j rest, runProcessor fxReg fxDb "convert" (i :: j :: rest) [] =
        Except.error PErr.arityManySingle) ∧
      (∀ i, (∀ n ∈ [i], ∃ e, getEntry fxDb n = some e) → NoBadRet fxProcSingle [] →
        ∃ db' e, runProcessor fxReg fxDb "convert" [i] [] = Except.ok (db', e))) :=
  ⟨rfl, C7_single_arity rfl rfl⟩

/-- C8: a step naming an unregistered processor fails with the
unknown-processor error before any mutation: the step and the whole step loop
return the bare error, so no database change and no context change escape. -/
theorem C8_unknown_processor {reg : Registry} {db : DB} {ctx : Ctx}
    {step : PipelineStep} {rest : List PipelineStep}
    (h : List.lookup step.processor reg = none) :
    execStep reg db ctx step = Except.error (PErr.unknownProcessor step.processor) ∧
    execSteps reg db ctx (step :: rest) =
      Except.error (PErr.unknownProcessor step.processor) := by
  have hgp : getProcessor reg step.processor
      = Except.error (PErr.unknownProcessor step.processor) := by
    unfold getProcessor
    rw [h]
  have h1 : execStep reg db ctx step
      = Except.error (PErr.unknownProcessor step.processor) := by
    unfold execStep
    simp only [hgp]
  refine ⟨h1, ?_⟩
  show (match execStep reg db ctx step with
    | Except.error er => Except.error er
    | Except.ok (db1, ctx1) => execSteps reg db1 ctx1 rest) = _
  rw [h1]

theorem C8_witness :
    List.lookup fxStepBad.processor fxReg = none ∧
    (execStep fxReg fxDb fxCtx fxStepBad =
        Except.error (PErr.unknownProcessor fxStepBad.processor) ∧
      execSteps fxReg fxDb fxCtx (fxStepBad :: []) =
        Except.error (PErr.unknownProcessor fxStepBad.processor)) :=
  ⟨rfl, C8_unknown_processor rfl⟩

/-- C9: the cache key is invariant under permutation of the resolved input id
list, and consequently a step resolving to a permutation of a previously
cached run's inputs is served from the cache (the cached output id is
published and the state is untouched). -/
theorem C9_hash_perm_invariance {p fh : String} {ids1 ids2 : List Nat}
    {ps : List (String × JVal)}
    {reg : Registry} {db : DB} {ctx : Ctx} {step : PipelineStep} {proc : ProcDesc}
    {row : StepCacheRow}
    (hperm : List.Perm ids1 ids2)
    (hproc : getProcessor reg step.processor = Except.ok proc)
    (hres : resolveInputs ctx step.inputs = ids2)
    (hrow : lookupStepCache db
      (generateStepHash step.processor proc.fhash ids1 step.params) = some row)
    (hforce : step.forceRerun = false) (hcache : step.cache = true)
    (hexp : step.exportName = none) :
    generateStepHash p fh ids1 ps = generateStepHash p fh ids2 ps ∧
    execStep reg db ctx step =
      Except.ok (db, updCtx ctx step.outputVar [row.outputId]) := by
  have hsh : stepHashOf proc ctx step
      = generateStepHash step.processor proc.fhash ids1 step.params := by
    unfold stepHashOf
    rw [hres]
    exact (generateStepHash_perm step.processor proc.fhash step.params hperm).symm
  exact ⟨generateStepHash_perm p fh ps hperm,
    execStep_cache_hit hproc (by rw [hsh]; exact hrow) hforce hcache hexp⟩

theorem C9_witness :
    List.Perm [1, 2] [2, 1] ∧
    (generateStepHash "p" "fh" [1, 2] [("k", JVal.jnum 1)] =
        generateStepHash "p" "fh" [2, 1] [("k", JVal.jnum 1)] ∧
      execStep fxReg fxDb9 fxCtx9 fxStep =
        Except.ok (fxDb9, updCtx fxCtx9 fxStep.outputVar [fxRow.outputId])) := by
  have hrow : lookupStepCache fxDb9
      (generateStepHash fxStep.processor fxProcMulti.fhash [1, 2] fxStep.params)
      = some fxRow := rfl
  exact ⟨by decide, C9_hash_perm_invariance (by decide) rfl rfl hrow rfl rfl rfl⟩

/-- C10: a successful step rebinds exactly its output variable — to a
one-element id list, overwriting any prior binding of that name — and every
other context variable keeps its previous value. -/
theorem C10_context_frame {reg : Registry} {db db1 : DB} {ctx ctx1 : Ctx}
    {step : PipelineStep}
    (h : execStep reg db ctx step = Except.ok (db1, ctx1)) :
    ∃ i, ctx1 step.outputVar = [i] ∧
      (∀ v, v ≠ step.outputVar → ctx1 v = ctx v) ∧
      (∀ (ctx0 : Ctx) (prior : List Nat), ctx = updCtx ctx0 step.outputVar prior →
        ctx1 = updCtx ctx0 step.outputVar [i]) := by
  obtain ⟨i, hctx⟩ := execStep_ok_ctx h
  refine ⟨i, ?_, ?_, ?_⟩
  · rw [hctx]
    exact updCtx_same ctx step.outputVar [i]
  · intro v hv
    rw [hctx]
    exact updCtx_other ctx step.outputVar [i] hv
  · intro ctx0 prior hprior
    rw [hctx, hprior, updCtx_overwrite]

theorem C10_witness :
    ∃ i, fxRes.2 fxStep.outputVar = [i] ∧
      (∀ v, v ≠ fxStep.outputVar → fxRes.2 v = fxCtx v) ∧
      (∀ (ctx0 : Ctx) (prior : List Nat), fxCtx = updCtx ctx0 fxStep.outputVar prior →
        fxRes.2 = updCtx ctx0 fxStep.outputVar [i]) := by
  have h : execStep fxReg fxDb fxCtx fxStep = Except.ok (fxRes.1, fxRes.2) := rfl
  exact C10_context_frame h
